import Mathlib

/-!
Verification of the pixel-art downscaler core (background removal, trimming,
scale search, fine-tuning, canvas padding) against its specification.

The image pipeline is shallowly embedded: an image is a width, a height and a
total pixel function; 8-bit channels are natural numbers; floating-point
scores are modelled exactly over the rationals (the score formulas involve
only sums, means and comparisons whose real-number values the rationals
represent exactly); Python float infinity used as a sentinel score is
modelled with `Option`/`WithTop`.  Python `round` (banker's rounding) and
`int` (truncation toward zero) are modelled exactly on the rationals.
`PIL.Image.resize` with nearest-neighbor resampling maps output pixel `i` to
source pixel `floor((i + 1/2) * src / dst)` (Pillow's affine transform with
pixel-center sampling), which is what `resizeNearest` implements.
-/

-- The Batteries rational-arithmetic primitives are `@[irreducible]`, which
-- blocks `decide` on concrete score computations; restore the default
-- transparency so witnesses evaluate.
set_option allowUnsafeReducibility true in
attribute [semireducible] Rat.add Rat.sub Rat.mul Rat.inv

/-- One RGBA pixel; channels are 8-bit values stored as naturals. -/
structure RGBA where
  r : Nat
  g : Nat
  b : Nat
  a : Nat
deriving DecidableEq

/-- An RGBA raster: dimensions plus a total pixel function (row `y`, column
`x`), matching a numpy array indexed `arr[y, x]`.  Values outside the
`height × width` domain are irrelevant to every definition below. -/
structure Img where
  width : Nat
  height : Nat
  px : Nat → Nat → RGBA

/-- Sum of `f 0 + ... + f (n-1)` over the rationals. -/
def sumN (n : Nat) (f : Nat → ℚ) : ℚ :=
  match n with
  | 0 => 0
  | m + 1 => sumN m f + f m

/-- Count of indices `i < n` with `p i`. -/
def countN (n : Nat) (p : Nat → Bool) : Nat :=
  match n with
  | 0 => 0
  | m + 1 => countN m p + (if p m then 1 else 0)

/-- Does some index `i < n` satisfy `p`? -/
def anyN (n : Nat) (p : Nat → Bool) : Bool :=
  match n with
  | 0 => false
  | m + 1 => anyN m p || p m

/-- Row-major double sum over a `h × w` grid. -/
def sum2 (h w : Nat) (f : Nat → Nat → ℚ) : ℚ :=
  sumN h (fun y => sumN w (fun x => f y x))

/-- Sum of `f 0 + ... + f (n-1)` over the naturals. -/
def sumNatN (n : Nat) (f : Nat → Nat) : Nat :=
  match n with
  | 0 => 0
  | m + 1 => sumNatN m f + f m

/-- Row-major double count over a `h × w` grid. -/
def count2 (h w : Nat) (p : Nat → Nat → Bool) : Nat :=
  sumNatN h (fun y => countN w (fun x => p y x))

/-- Does any cell of the `h × w` grid satisfy `p`? -/
def any2 (h w : Nat) (p : Nat → Nat → Bool) : Bool :=
  anyN h (fun y => anyN w (fun x => p y x))

/-- Python `round`: round half to even (banker's rounding).  Built on the
computable `Rat.floor` (definitionally `⌊q⌋`). -/
def pyRound (q : ℚ) : ℤ :=
  if q - (q.floor : ℚ) < 1/2 then q.floor
  else if (1:ℚ)/2 < q - (q.floor : ℚ) then q.floor + 1
  else if q.floor % 2 = 0 then q.floor else q.floor + 1

/-- Python `int` on a real value: truncation toward zero. -/
def pyInt (q : ℚ) : ℤ :=
  if 0 ≤ q then q.floor else q.ceil

/-- Python `range(a, b+1)` over the integers: the list `a, a+1, ..., b`. -/
def intRange (a b : ℤ) : List ℤ :=
  (List.range (b + 1 - a).toNat).map (fun (k : Nat) => a + (k : ℤ))

/-- Python `range(lo, hi)`: the list `lo, lo+1, ..., hi-1` of naturals. -/
def rangeLH (lo hi : Nat) : List Nat :=
  (List.range (hi - lo)).map (fun k => lo + k)

/-- Python `range(lo, hi, step)` for a positive step. -/
def rangeStep (lo hi step : Nat) : List Nat :=
  (List.range ((hi - lo + step - 1) / step)).map (fun k => lo + k * step)

/-- Least `i < n` with `p i`, if any (used for `np.where(...)[0].min()`). -/
def findFirst (p : Nat → Bool) : Nat → Option Nat
  | 0 => none
  | n + 1 =>
    match findFirst p n with
    | some i => some i
    | none => if p n then some n else none

/-- Greatest `i < n` with `p i`, if any (used for `np.where(...)[0].max()`). -/
def findLast (p : Nat → Bool) : Nat → Option Nat
  | 0 => none
  | n + 1 => if p n then some n else findLast p n

/-- Python's `min(key=f)` accumulator: keeps the current best, replacing it
only on a strictly smaller key, so the first minimum wins. -/
def pyFoldMin {α β : Type} [LinearOrder β] (f : α → β) (b : α) (l : List α) : α :=
  match l with
  | [] => b
  | x :: xs => pyFoldMin f (if f x < f b then x else b) xs

/-- Python `min(l, key=f)`: first element of `l` attaining the least key. -/
def pyMinBy {α β : Type} [LinearOrder β] (f : α → β) (l : List α) : Option α :=
  match l with
  | [] => none
  | x :: xs => some (pyFoldMin f x xs)

/-- Python's `max(key=f)` accumulator (first maximum wins). -/
def pyFoldMax {α β : Type} [LinearOrder β] (f : α → β) (b : α) (l : List α) : α :=
  match l with
  | [] => b
  | x :: xs => pyFoldMax f (if f b < f x then x else b) xs

/-- Python `max(l, key=f)`: first element of `l` attaining the greatest key. -/
def pyMaxBy {α β : Type} [LinearOrder β] (f : α → β) (l : List α) : Option α :=
  match l with
  | [] => none
  | x :: xs => some (pyFoldMax f x xs)

/-- Materialized boolean `h × w` grid (a numpy boolean mask). -/
def Mask := List (List Bool)
deriving DecidableEq

/-- Build a mask by tabulating a predicate over the grid. -/
def maskOf (h w : Nat) (p : Nat → Nat → Bool) : Mask :=
  (List.range h).map (fun y => (List.range w).map (fun x => p y x))

/-- Read a mask cell (out-of-range reads yield `false`, matching the
border-value-0 convention of the scipy morphology calls). -/
def maskGet (m : Mask) (y x : Nat) : Bool :=
  ((m.getD y []).getD x false)

/-- `PIL.Image.resize((w, h), Image.Resampling.NEAREST)`: output pixel
`(x, y)` samples the source at `floor((x + 1/2)·srcW/w)`,
`floor((y + 1/2)·srcH/h)`. -/
def resizeNearest (im : Img) (w h : Nat) : Img :=
  ⟨w, h, fun y x => im.px ((2 * y + 1) * im.height / (2 * h)) ((2 * x + 1) * im.width / (2 * w))⟩

/-- Is the pixel at `(y, x)` visible (alpha nonzero)? -/
def opaqueAt (im : Img) (y x : Nat) : Bool :=
  decide (0 < (im.px y x).a)

/-- `np.count_nonzero(arr[:, :, 3] > 0)`: number of visible pixels. -/
def countOpaque (im : Img) : Nat :=
  count2 im.height im.width (fun y x => opaqueAt im y x)

/-- `(arr[:, :, 3] > 0).any()`: does the image have a visible pixel? -/
def has_visible (im : Img) : Bool :=
  any2 im.height im.width (fun y x => opaqueAt im y x)

namespace PD

/-!  Shallow embedding of `pixel_downscaler.py` (Strategy A pipeline).  -/

/-- `math.ceil(n / m)` for naturals (`m ≥ 1`; the Python code divides floats
but every value reached is exactly representable). -/
def ceilDiv (n m : Nat) : Nat :=
  (n + m - 1) / m

/-- `pad_to_multiple`: pad the canvas to the next multiple of `multiple`,
centering the artwork on a fully transparent canvas; identity when the
dimensions are already multiples. -/
def pad_to_multiple (im : Img) (multiple : Nat) : Img :=
  let target_w := ceilDiv im.width multiple * multiple
  let target_h := ceilDiv im.height multiple * multiple
  if target_w = im.width ∧ target_h = im.height then im
  else
    let paste_x := (target_w - im.width) / 2
    let paste_y := (target_h - im.height) / 2
    ⟨target_w, target_h, fun y x =>
      if paste_y ≤ y ∧ y < paste_y + im.height ∧ paste_x ≤ x ∧ x < paste_x + im.width then
        im.px (y - paste_y) (x - paste_x)
      else ⟨0, 0, 0, 0⟩⟩

/-- Does row `y` contain a visible pixel? -/
def rowHas (im : Img) (y : Nat) : Bool :=
  anyN im.width (fun x => opaqueAt im y x)

/-- Does column `x` contain a visible pixel? -/
def colHas (im : Img) (x : Nat) : Bool :=
  anyN im.height (fun y => opaqueAt im y x)

/-- `im.crop((left, upper, right, lower))` (all coordinates in bounds in
every use below). -/
def crop (im : Img) (left upper right lower : Nat) : Img :=
  ⟨right - left, lower - upper, fun y x => im.px (upper + y) (left + x)⟩

/-- `trim_transparency`: crop to the bounding box of visible pixels, or
return the image unchanged when no pixel is visible. -/
def trim_transparency (im : Img) : Img :=
  if has_visible im then
    crop im ((findFirst (colHas im) im.width).getD 0)
            ((findFirst (rowHas im) im.height).getD 0)
            ((findLast (colHas im) im.width).getD 0 + 1)
            ((findLast (rowHas im) im.height).getD 0 + 1)
  else im

/-- `grid_alignment_score`: nearest-neighbor downsize to
`round(W/factor) × round(H/factor)`, upsize back, and score reconstruction
fidelity over visible pixels.  `none` models the Python return
`(float('inf'), None)` (target side below 8, or no visible pixel). -/
def grid_alignment_score (im : Img) (factor : ℚ) : Option (ℚ × Img) :=
  let new_w : ℤ := pyRound ((im.width : ℚ) / factor)
  let new_h : ℤ := pyRound ((im.height : ℚ) / factor)
  if new_w < 8 ∨ new_h < 8 then none
  else
    let down := resizeNearest im new_w.toNat new_h.toNat
    let up := resizeNearest down im.width im.height
    if has_visible im then
      let n : ℚ := countOpaque im
      -- np.mean(rgb_diff[alpha_mask]): mean over the 3·n selected channel values
      let mae := sum2 im.height im.width (fun y x =>
        if opaqueAt im y x then
          |((im.px y x).r : ℚ) - ((up.px y x).r : ℚ)| +
          |((im.px y x).g : ℚ) - ((up.px y x).g : ℚ)| +
          |((im.px y x).b : ℚ) - ((up.px y x).b : ℚ)|
        else 0) / (3 * n)
      let alpha_error := sum2 im.height im.width (fun y x =>
        if opaqueAt im y x then |((im.px y x).a : ℚ) - ((up.px y x).a : ℚ)| else 0) / n
      let semi := count2 new_h.toNat new_w.toNat (fun y x =>
        decide (0 < (down.px y x).a) && decide ((down.px y x).a < 255))
      let semiFrac : ℚ := (semi : ℚ) / ((new_w.toNat : ℚ) * (new_h.toNat : ℚ))
      some (mae + alpha_error * (1/2) + semiFrac * 100, down)
    else none

/-- `information_content`: variance of the RGB values of visible pixels plus
one tenth of the count of luminance first differences exceeding 20. -/
def information_content (im : Img) : ℚ :=
  if has_visible im then
    let n : ℚ := 3 * (countOpaque im : ℚ)
    let mean := sum2 im.height im.width (fun y x =>
      if opaqueAt im y x then
        ((im.px y x).r : ℚ) + ((im.px y x).g : ℚ) + ((im.px y x).b : ℚ)
      else 0) / n
    let variance := sum2 im.height im.width (fun y x =>
      if opaqueAt im y x then
        (((im.px y x).r : ℚ) - mean) ^ 2 + (((im.px y x).g : ℚ) - mean) ^ 2 +
          (((im.px y x).b : ℚ) - mean) ^ 2
      else 0) / n
    let gray : Nat → Nat → ℚ := fun y x =>
      (((im.px y x).r : ℚ) + ((im.px y x).g : ℚ) + ((im.px y x).b : ℚ)) / 3
    let edge_count : Nat :=
      count2 im.height (im.width - 1) (fun y x => decide (20 < |gray y (x + 1) - gray y x|)) +
      count2 (im.height - 1) im.width (fun y x => decide (20 < |gray (y + 1) x - gray y x|))
    variance + (edge_count : ℚ) / 10
  else 0

/-- A Strategy-A scale candidate (`results` entry of `find_optimal_scale`). -/
structure CandA where
  factor : ℤ
  image : Img
  alignment : ℚ
  info : ℚ
  combined : ℚ

/-- Python truthiness of the optional grid hint (`if grid_size:`). -/
def truthyHint (hint : Option ℚ) : Option ℚ :=
  match hint with
  | some g => if g = 0 then none else some g
  | none => none

/-- The integer search bounds of `find_optimal_scale`: the hint narrows the
range to `[int(hint-2), int(hint+2)]` clamped to `[min_factor, max_factor]`
when it is truthy and lies within the configured bounds. -/
def search_bounds (hint : Option ℚ) (min_factor max_factor : ℤ) : ℤ × ℤ :=
  match truthyHint hint with
  | some g =>
    if (min_factor : ℚ) ≤ g ∧ g ≤ (max_factor : ℚ) then
      (max min_factor (pyInt (g - 2)), min max_factor (pyInt (g + 2)))
    else (min_factor, max_factor)
  | none => (min_factor, max_factor)

/-- One iteration of the search loop of `find_optimal_scale`: the candidate
record for an integer factor (`none` when `grid_alignment_score` rejected
it), carrying the alignment, information and combined scores. -/
def candidateA (im : Img) (f : ℤ) : Option CandA :=
  (grid_alignment_score im (f : ℚ)).map (fun sd =>
    let info := information_content sd.2
    ⟨f, sd.2, sd.1, info, sd.1 - info / 1000⟩)

/-- The candidate list built by the search loop of `find_optimal_scale`
(factors whose `grid_alignment_score` returned a downsized image). -/
def scale_candidates (im : Img) (hint : Option ℚ) (min_factor max_factor : ℤ) : List CandA :=
  let b := search_bounds hint min_factor max_factor
  (intRange b.1 b.2).filterMap (fun (f : ℤ) => candidateA im f)

/-- `find_optimal_scale` (Strategy A): search the (possibly hint-narrowed)
integer factor range, pick the minimum combined score, and optionally prefer
the hint-closest candidate when the hint raised the lower search bound and
that candidate scores within the 1.2× band.  The grid hint is a parameter:
in the source it is produced by `detect_grid_size`, an FFT peak picker over
float edge profiles whose value is only ever used as an opaque rational
here. -/
def find_optimal_scale (im : Img) (hint : Option ℚ) (min_factor max_factor : ℤ) :
    Img × ℚ × Option ℚ :=
  let b := search_bounds hint min_factor max_factor
  let results := scale_candidates im hint min_factor max_factor
  match pyMinBy (fun (c : CandA) => c.combined) results with
  | none => (im, 1, hint)
  | some best =>
    let chosen :=
      match truthyHint hint with
      | some g =>
        if b.1 ≠ min_factor then
          let closest := (pyMinBy (fun (c : CandA) => |(c.factor : ℚ) - g|) results).getD best
          if closest.combined < best.combined * (12/10) then closest else best
        else best
      | none => best
    (chosen.image, (chosen.factor : ℚ), hint)

/-- `fine_tune_scale`: rescore a ±1 window around the center (the truthy grid
hint, else the integer factor) in steps of 1/20, skipping factors below 1 and
degenerate scores; returns the best downsized image (or `None` when every
candidate was skipped) with its factor.  `np.arange(c-1, c+1.01, 0.05)`
produces 41 evenly spaced values; the `results_by_size` table kept by the
source is dead for the return value and is not modelled. -/
def fine_tune_scale (im : Img) (initial_factor : ℚ) (hint : Option ℚ) :
    Option Img × ℚ :=
  let center := match truthyHint hint with
    | some g => g
    | none => initial_factor
  let factors := (List.range 41).map (fun k => center - 1 + (k : ℚ) * (5/100))
  let step := fun (st : Option (ℚ × Img) × ℚ) (f : ℚ) =>
    if f < 1 then st
    else
      match grid_alignment_score im f with
      | none => st
      | some sd =>
        match st.1 with
        | none => (some (sd.1, sd.2), f)
        | some best =>
          if sd.1 < best.1 then (some (sd.1, sd.2), f) else st
  let final := factors.foldl step (none, initial_factor)
  ((final.1).map (fun sd => sd.2), final.2)

/-- An RGB triple (`np.int16` values in the source; naturals suffice for the
pixel data, while background clusters quantized upward may reach 256). -/
abbrev RGBTriple : Type := ℤ × ℤ × ℤ

/-- The RGB part of a pixel as a triple of integers. -/
def rgbAt (im : Img) (y x : Nat) : RGBTriple :=
  (((im.px y x).r : ℤ), ((im.px y x).g : ℤ), ((im.px y x).b : ℤ))

/-- Settings mapping consumed through `settings.get(key, default)`; one field
per key the pipeline reads, holding the looked-up (or default) value. -/
structure Settings where
  bg_removal_mode : String := "conservative"
  bg_tolerance : ℤ := 15
  bg_edge_tolerance : ℤ := 25
  preserve_dark_lines : Bool := true
  dark_line_threshold : ℤ := 50
  auto_trim : Bool := true
  enable_fine_tune : Bool := true
  pad_canvas : Bool := true
  canvas_multiple : Nat := 16

/-- Maximum of a list of rationals (`d` when empty). -/
def listMax (d : ℚ) (l : List ℚ) : ℚ :=
  l.foldl max d

/-- Minimum of a list of rationals (`d` when empty). -/
def listMin (d : ℚ) (l : List ℚ) : ℚ :=
  l.foldl min d

/-- `is_content_edge`: does the (clipped) 7×7 window around `(x, y)` show
color variance above 100 or per-channel range (`np.ptp` per channel, summed)
above 50?  Only ever called with `(x, y)` in the raster, so the window is
nonempty. -/
def is_content_edge (im : Img) (x y : Nat) : Bool :=
  let window_size := 3
  let y_start := y - window_size
  let y_end := min im.height (y + window_size + 1)
  let x_start := x - window_size
  let x_end := min im.width (x + window_size + 1)
  let nh := y_end - y_start
  let nw := x_end - x_start
  let chan : Nat → Nat → Nat → ℚ := fun i j c =>
    let p := im.px (y_start + i) (x_start + j)
    if c = 0 then (p.r : ℚ) else if c = 1 then (p.g : ℚ) else (p.b : ℚ)
  let n : ℚ := (nh : ℚ) * (nw : ℚ) * 3
  let mean := sumN nh (fun i => sumN nw (fun j => chan i j 0 + chan i j 1 + chan i j 2)) / n
  let variance := sumN nh (fun i => sumN nw (fun j =>
    (chan i j 0 - mean) ^ 2 + (chan i j 1 - mean) ^ 2 + (chan i j 2 - mean) ^ 2)) / n
  let vals : Nat → List ℚ := fun c =>
    (List.range nh).flatMap (fun i => (List.range nw).map (fun j => chan i j c))
  let ptp : Nat → ℚ := fun c => listMax ((vals c).headD 0) (vals c) - listMin ((vals c).headD 0) (vals c)
  decide (variance > 100) || decide (ptp 0 + ptp 1 + ptp 2 > 50)

/-- Plus-shaped (4-neighborhood) binary dilation on a `h × w` grid; cells
outside the grid count as `false` (scipy border value 0). -/
def dilate4 (h w : Nat) (m : Mask) : Mask :=
  maskOf h w (fun y x =>
    maskGet m y x || (decide (0 < y) && maskGet m (y - 1) x) || maskGet m (y + 1) x ||
      (decide (0 < x) && maskGet m y (x - 1)) || maskGet m y (x + 1))

/-- Plus-shaped (4-neighborhood) binary erosion; cells outside the grid count
as `false`, so border cells never survive. -/
def erode4 (h w : Nat) (m : Mask) : Mask :=
  maskOf h w (fun y x =>
    maskGet m y x && (decide (0 < y) && maskGet m (y - 1) x) &&
      (decide (y + 1 < h) && maskGet m (y + 1) x) &&
      (decide (0 < x) && maskGet m y (x - 1)) &&
      (decide (x + 1 < w) && maskGet m y (x + 1)))

/-- Iterated dilation (`binary_dilation(..., iterations=k)`). -/
def dilateIter (h w : Nat) (m : Mask) : Nat → Mask
  | 0 => m
  | k + 1 => dilateIter h w (dilate4 h w m) k

/-- `detect_dark_lines`: pixels dark (RGB sum below the threshold) and
minimally visible (alpha above 10), opened with one plus-shaped erosion then
one dilation. -/
def detect_dark_lines (im : Img) (threshold : ℤ) : Mask :=
  let dark_with_alpha := maskOf im.height im.width (fun y x =>
    decide ((((im.px y x).r : ℤ) + ((im.px y x).g : ℤ) + ((im.px y x).b : ℤ)) < threshold) &&
      decide (10 < (im.px y x).a))
  dilate4 im.height im.width (erode4 im.height im.width dark_with_alpha)

/-- `sample_edge_colors(arr, sample_width=5)`: RGB triples of the top five
rows, bottom five rows, left five columns and right five columns, in that
order (row-major within each band; the bands overlap at the corners exactly
as the numpy slices do). -/
def sample_edge_colors (im : Img) : List RGBTriple :=
  let h := im.height
  let w := im.width
  ((rangeLH 0 (min 5 h)).flatMap (fun y => (rangeLH 0 w).map (fun x => rgbAt im y x))) ++
  ((rangeLH (h - 5) h).flatMap (fun y => (rangeLH 0 w).map (fun x => rgbAt im y x))) ++
  ((rangeLH 0 h).flatMap (fun y => (rangeLH 0 (min 5 w)).map (fun x => rgbAt im y x))) ++
  ((rangeLH 0 h).flatMap (fun y => (rangeLH (w - 5) w).map (fun x => rgbAt im y x)))

/-- `np.round(c / 16) * 16` per channel (numpy rounds half to even). -/
def quantize16 (c : RGBTriple) : RGBTriple :=
  (16 * pyRound ((c.1 : ℚ) / 16), 16 * pyRound ((c.2.1 : ℚ) / 16), 16 * pyRound ((c.2.2 : ℚ) / 16))

/-- The distinct elements of `l` in first-occurrence order (the key order of
a Python `Counter` built by insertion). -/
def distinctKeys (l : List RGBTriple) : List RGBTriple :=
  l.foldl (fun acc c => if c ∈ acc then acc else acc ++ [c]) []

/-- Occurrence count of `c` in `l`. -/
def occCount (l : List RGBTriple) (c : RGBTriple) : Nat :=
  l.countP (fun d => decide (d = c))

/-- `Counter(color_tuples).most_common(3)` keys: the three most frequent
quantized colors; `most_common` sorts stably by descending count, so ties
keep first-occurrence order, which repeatedly taking the first maximum
reproduces. -/
def find_background_colors (edge_colors : List RGBTriple) : List RGBTriple :=
  let rounded := edge_colors.map quantize16
  let keys := distinctKeys rounded
  let take1 := fun (ks : List RGBTriple) => pyMaxBy (fun c => occCount rounded c) ks
  match take1 keys with
  | none => []
  | some c1 =>
    let rest1 := keys.erase c1
    match take1 rest1 with
    | none => [c1]
    | some c2 =>
      let rest2 := rest1.erase c2
      match take1 rest2 with
      | none => [c1, c2]
      | some c3 => [c1, c2, c3]

/-- Lexicographic order on RGB triples (the row order of `np.unique`). -/
def rgbLe (c d : RGBTriple) : Bool :=
  decide (c.1 < d.1) ||
    (decide (c.1 = d.1) && (decide (c.2.1 < d.2.1) ||
      (decide (c.2.1 = d.2.1) && decide (c.2.2 ≤ d.2.2))))

/-- Insert into a lexicographically sorted duplicate-free list. -/
def insertSortedDistinct (c : RGBTriple) (l : List RGBTriple) : List RGBTriple :=
  match l with
  | [] => [c]
  | d :: ds =>
    if c = d then d :: ds
    else if rgbLe c d then c :: d :: ds
    else d :: insertSortedDistinct c ds

/-- `np.unique(colors, axis=0)`: distinct rows in lexicographic order. -/
def uniqueSorted (l : List RGBTriple) : List RGBTriple :=
  l.foldl (fun acc c => insertSortedDistinct c acc) []

/-- Row-major list of the RGB triples of the top-left `ch × cw` corner. -/
def cornerList (im : Img) (ch cw : Nat) : List RGBTriple :=
  (rangeLH 0 ch).flatMap (fun y => (rangeLH 0 cw).map (fun x => rgbAt im y x))

/-- `detect_checkerboard_pattern`: if the (≤50)×(≤50) corner holds exactly
two distinct colors and more than 90% of a coarse every-other-pixel sample
equals one of them (it always does, both colors being the only corner
colors), report the two colors, in `np.unique`'s lexicographic order. -/
def detect_checkerboard_pattern (im : Img) : Option (RGBTriple × RGBTriple) :=
  let ch := min 50 im.height
  let cw := min 50 im.width
  match uniqueSorted (cornerList im ch cw) with
  | [color1, color2] =>
    let samples := (rangeStep 0 (min 20 ch) 2).flatMap (fun i =>
      (rangeStep 0 (min 20 cw) 2).map (fun j => (i, j)))
    let matched := samples.countP (fun ij =>
      decide (rgbAt im ij.1 ij.2 = color1) || decide (rgbAt im ij.1 ij.2 = color2))
    let total := samples.length
    if 0 < total ∧ (9/10 : ℚ) < (matched : ℚ) / (total : ℚ) then some (color1, color2)
    else none
  | _ => none

/-- One flood-fill step shared by both fill loops: dilate the region, clamp
it to `mask`, and (conservative fill only) subtract the barrier. -/
def floodStep (h w : Nat) (mask barrier : Mask) (r : Mask) : Mask :=
  maskOf h w (fun y x =>
    maskGet (dilate4 h w r) y x && maskGet mask y x && !maskGet barrier y x)

/-- Flood-fill loop with an iteration cap, stopping at the fixed point.  The
source runs the dilate-and-clamp body up to `fuel` times and breaks as soon
as an iteration changes nothing. -/
def floodLoop (h w : Nat) (mask barrier : Mask) : Nat → Mask → Mask
  | 0, r => r
  | fuel + 1, r =>
    let nr := floodStep h w mask barrier r
    if nr = r then r else floodLoop h w mask barrier fuel nr

/-- `conservative_flood_fill(mask, edge_seed, content_barrier)` (cap 500). -/
def conservative_flood_fill (h w : Nat) (mask seed barrier : Mask) : Mask :=
  floodLoop h w mask barrier 500 seed

/-- `binary_propagation(mask, seed)` (no barrier, cap 1000). -/
def binary_propagation (h w : Nat) (mask seed : Mask) : Mask :=
  floodLoop h w mask (maskOf h w (fun _ _ => false)) 1000 seed

/-- Is `(y, x)` in the 10-pixel border band (`edge_mask` rows/columns)? -/
def inEdgeBand (h w y x : Nat) : Bool :=
  decide (y < 10) || decide (h - 10 ≤ y) || decide (x < 10) || decide (w - 10 ≤ x)

/-- Manhattan RGB distance to a background color. -/
def colorDiff (im : Img) (y x : Nat) (bg : RGBTriple) : ℤ :=
  |((im.px y x).r : ℤ) - bg.1| + |((im.px y x).g : ℤ) - bg.2.1| + |((im.px y x).b : ℤ) - bg.2.2|

/-- `remove_background_improved`: classify background pixels (checkerboard
colors or clustered edge colors within tolerance), protect dark lines and
edge content, flood from the border, and zero the alpha of flooded pixels. -/
def remove_background_improved (im : Img) (settings : Settings) : Img :=
  let mode := settings.bg_removal_mode
  if mode = "none" then im
  else
    let h := im.height
    let w := im.width
    let dark_line_mask :=
      if settings.preserve_dark_lines then detect_dark_lines im settings.dark_line_threshold
      else maskOf h w (fun _ _ => false)
    let content_edge_mask :=
      if mode = "conservative" then
        maskOf h w (fun y x =>
          (decide (x < 10) || decide (w - 10 ≤ x) || decide (y < 10) || decide (h - 10 ≤ y)) &&
            is_content_edge im x y)
      else maskOf h w (fun _ _ => false)
    let bg_colors :=
      match detect_checkerboard_pattern im with
      | some cc => [cc.1, cc.2]
      | none => find_background_colors (sample_edge_colors im)
    let raw_mask := maskOf h w (fun y x =>
      bg_colors.any (fun bg =>
        if inEdgeBand h w y x then decide (colorDiff im y x bg ≤ settings.bg_edge_tolerance)
        else decide (colorDiff im y x bg ≤ settings.bg_tolerance)))
    let mask := maskOf h w (fun y x =>
      maskGet raw_mask y x && !maskGet dark_line_mask y x &&
        (if mode = "conservative" then !maskGet content_edge_mask y x else true))
    let edge_seed := maskOf h w (fun y x =>
      (decide (y = 0) || decide (y = h - 1) || decide (x = 0) || decide (x = w - 1)) &&
        maskGet mask y x)
    let mask_dilated := dilateIter h w mask (if mode = "conservative" then 1 else 2)
    let content_barrier := maskOf h w (fun y x =>
      maskGet dark_line_mask y x || maskGet content_edge_mask y x)
    let flooded :=
      if mode = "conservative" then
        conservative_flood_fill h w mask_dilated edge_seed content_barrier
      else binary_propagation h w mask_dilated edge_seed
    ⟨w, h, fun y x =>
      let p := im.px y x
      ⟨p.r, p.g, p.b, if maskGet flooded y x then 0 else p.a⟩⟩

/-- The image handed to scale search by `downscale_image`: background
removal followed by the optional transparency trim. -/
def cleaned_image (im : Img) (settings : Settings) : Img :=
  let im1 := remove_background_improved im settings
  if settings.auto_trim then trim_transparency im1 else im1

/-- Steps 1–5 of `downscale_image` (loading and saving are I/O and outside
the embedding; the FFT grid hint is a parameter, as in
`find_optimal_scale`).  When fine-tuning yields `None`, the Python steps
that follow (`pad_to_multiple(result)`, `result.save(...)`) raise on the
`None` image, so no output raster is produced; the `Option` result models
that absence. -/
def downscale_image (im : Img) (settings : Settings) (hint : Option ℚ) :
    Option Img × ℚ :=
  let im2 := cleaned_image im settings
  let fr := find_optimal_scale im2 hint 6 20
  let ft :=
    if settings.enable_fine_tune ∧ 16 ≤ fr.1.width ∧ 16 ≤ fr.1.height then
      fine_tune_scale im2 fr.2.1 hint
    else (some fr.1, fr.2.1)
  let padded :=
    if settings.pad_canvas then ft.1.map (fun r => pad_to_multiple r settings.canvas_multiple)
    else ft.1
  (padded, ft.2)

end PD

namespace BU

/-!  Shallow embedding of `block_uniformity.py` (Strategy B scale search).
Variances are `WithTop ℚ`: `⊤` models the Python `float('inf')` sentinel.  -/

/-- `calculate_block_variance_fast`: mean within-block RGB variance over the
central region (outer sixth margins excluded) at the given scale and phase;
`⊤` when fewer than 2 blocks fit along either axis.  Only evaluated with
`scale ≥ 1`. -/
def calculate_block_variance_fast (im : Img) (scale phase_x phase_y : Nat) : WithTop ℚ :=
  let h := im.height
  let w := im.width
  let margin_y := h / 6
  let margin_x := w / 6
  let rh := (h - margin_y) - margin_y
  let rw := (w - margin_x) - margin_x
  let adj_py := phase_y % scale
  let adj_px := phase_x % scale
  let n_blocks_y := (rh - adj_py) / scale
  let n_blocks_x := (rw - adj_px) / scale
  if n_blocks_y < 2 ∨ n_blocks_x < 2 then ⊤
  else
    -- pixel channel value inside block (i, j) at in-block offset (u, v)
    let chan : Nat → Nat → Nat → Nat → Nat → ℚ := fun i j u v c =>
      let p := im.px (margin_y + adj_py + i * scale + u) (margin_x + adj_px + j * scale + v)
      if c = 0 then (p.r : ℚ) else if c = 1 then (p.g : ℚ) else (p.b : ℚ)
    let blockVar : Nat → Nat → ℚ := fun i j =>
      let m : Nat → ℚ := fun c =>
        sumN scale (fun u => sumN scale (fun v => chan i j u v c)) / ((scale : ℚ) * scale)
      sumN scale (fun u => sumN scale (fun v =>
        (chan i j u v 0 - m 0) ^ 2 + (chan i j u v 1 - m 1) ^ 2 + (chan i j u v 2 - m 2) ^ 2)) /
        ((scale : ℚ) * scale * 3)
    some (sumN n_blocks_y (fun i => sumN n_blocks_x (fun j => blockVar i j)) /
      ((n_blocks_y : ℚ) * (n_blocks_x : ℚ)))

/-- The state of the phase-search loop: current best `(phase_x, phase_y)`
and its variance (initially `(0, 0)` with `inf`); an element replaces the
state only when strictly better, so the first minimum in scan order wins. -/
def phaseFold (im : Img) (scale : Nat) (l : List (Nat × Nat)) (st : (Nat × Nat) × WithTop ℚ) :
    (Nat × Nat) × WithTop ℚ :=
  match l with
  | [] => st
  | p :: ps =>
    let v := calculate_block_variance_fast im scale p.1 p.2
    phaseFold im scale ps (if v < st.2 then (p, v) else st)

/-- The coarse phase grid of `find_best_phase_for_scale`: `(px, py)` pairs
scanned with `py` outer and `px` inner, both stepping by `max(1, scale//3)`. -/
def coarsePhases (scale : Nat) : List (Nat × Nat) :=
  let step := max 1 (scale / 3)
  (rangeStep 0 scale step).flatMap (fun py =>
    (rangeStep 0 scale step).map (fun px => (px, py)))

/-- The refinement window scanned around a coarse best phase (only when the
coarse step exceeded 1). -/
def finePhases (scale : Nat) (best : Nat × Nat) : List (Nat × Nat) :=
  let step := max 1 (scale / 3)
  if 1 < step then
    (rangeLH (best.2 - step) (min scale (best.2 + step + 1))).flatMap (fun py =>
      (rangeLH (best.1 - step) (min scale (best.1 + step + 1))).map (fun px => (px, py)))
  else []

/-- `find_best_phase_for_scale`: coarse scan over the phase grid, then a fine
scan of ±step around the coarse best, tracking the least variance seen. -/
def find_best_phase_for_scale (im : Img) (scale : Nat) : (Nat × Nat) × WithTop ℚ :=
  let coarse := phaseFold im scale (coarsePhases scale) ((0, 0), ⊤)
  phaseFold im scale (finePhases scale coarse.1) coarse

/-- One per-scale record of `find_optimal_scale` (Strategy B). -/
structure ResultB where
  scale : Nat
  phase_x : Nat
  phase_y : Nat
  variance : WithTop ℚ

/-- The `all_results` list: one record per scale in the searched range. -/
def all_results (im : Img) (min_scale max_scale : Nat) : List ResultB :=
  (rangeLH min_scale (max_scale + 1)).map (fun s =>
    let r := find_best_phase_for_scale im s
    ⟨s, r.1.1, r.1.2, r.2⟩)

/-- `find_optimal_scale` (Strategy B): per-scale best-phase variances, a
threshold of twice the global minimum variance, and the hint-closest (or
largest) scale within the threshold.  `none` models the `IndexError` the
source raises on an empty scale range (`sorted(...)[0]` of an empty list);
the rest mirrors the source: `sorted_by_var[0]` is the first entry of least
variance, and the `if not valid_scales` fallback (dead, since the least
variance is always within its own doubled threshold) returns it. -/
def find_optimal_scale (im : Img) (min_scale max_scale : Nat) (grid_hint : Option ℚ) :
    Option ResultB :=
  let results := all_results im min_scale max_scale
  match pyMinBy (fun (r : ResultB) => r.variance) results with
  | none => none
  | some min_entry =>
    let threshold := WithTop.map (fun q => q * 2) min_entry.variance
    let valid := results.filter (fun r => decide (r.variance ≤ threshold))
    let best :=
      match valid with
      | [] => min_entry
      | _ =>
        match truthyHintB grid_hint with
        | some g => (pyMinBy (fun (r : ResultB) => |(r.scale : ℚ) - g|) valid).getD min_entry
        | none => (pyMaxBy (fun (r : ResultB) => r.scale) valid).getD min_entry
    some best
where
  /-- Python truthiness of `if grid_hint:`. -/
  truthyHintB (hint : Option ℚ) : Option ℚ :=
    match hint with
    | some g => if g = 0 then none else some g
    | none => none

end BU

namespace PD

/-!  Specification-side definitions, written from the claim wording, to be
compared with the code-side functions above.  -/

/-- The nearest-neighbor downsize of the claim: target sides are
`round(W/f)` and `round(H/f)`. -/
def spec_down (im : Img) (f : ℤ) : Img :=
  resizeNearest im (pyRound ((im.width : ℚ) / (f : ℚ))).toNat
    (pyRound ((im.height : ℚ) / (f : ℚ))).toNat

/-- The downsize-then-upsize reconstruction of the claim. -/
def spec_up (im : Img) (f : ℤ) : Img :=
  resizeNearest (spec_down im f) im.width im.height

/-- Mean absolute RGB difference over pixels with original alpha > 0 between
the original and its reconstruction (each such pixel contributes its three
channel differences to the mean). -/
def spec_mae_rgb (im : Img) (f : ℤ) : ℚ :=
  sum2 im.height im.width (fun y x =>
    if opaqueAt im y x then
      |((im.px y x).r : ℚ) - (((spec_up im f).px y x).r : ℚ)| +
      |((im.px y x).g : ℚ) - (((spec_up im f).px y x).g : ℚ)| +
      |((im.px y x).b : ℚ) - (((spec_up im f).px y x).b : ℚ)|
    else 0) / (3 * (countOpaque im : ℚ))

/-- Mean absolute alpha difference over the same pixels. -/
def spec_mae_alpha (im : Img) (f : ℤ) : ℚ :=
  sum2 im.height im.width (fun y x =>
    if opaqueAt im y x then |((im.px y x).a : ℚ) - (((spec_up im f).px y x).a : ℚ)| else 0) /
    (countOpaque im : ℚ)

/-- Fraction of downsized pixels with alpha strictly between 0 and 255. -/
def spec_semi_frac (im : Img) (f : ℤ) : ℚ :=
  (count2 (spec_down im f).height (spec_down im f).width (fun y x =>
    decide (0 < ((spec_down im f).px y x).a) && decide (((spec_down im f).px y x).a < 255)) : ℚ) /
    (((spec_down im f).width : ℚ) * ((spec_down im f).height : ℚ))

/-- The claimed alignment score:
`MAE_rgb + 0.5 × MAE_alpha + 100 × semi_transparent_ratio`. -/
def spec_alignment_score (im : Img) (f : ℤ) : ℚ :=
  spec_mae_rgb im f + spec_mae_alpha im f * (1/2) + spec_semi_frac im f * 100

/-- The claimed combined score: alignment score minus the information-content
score of the downsized image divided by 1000. -/
def spec_combined_score (im : Img) (f : ℤ) : ℚ :=
  spec_alignment_score im f - information_content (spec_down im f) / 1000

/-- The selection rule exactly as claim C2 words it: if a grid hint existed
and narrowed the search range (the searched bounds differ from the
configured ones), prefer the hint-closest candidate when its combined score
is within 20% of the best; otherwise take the minimum combined score.
(`List.argmin`, like Python `min`, returns the first minimum.) -/
def claimed_selection_C2 (im : Img) (hint : Option ℚ) (min_factor max_factor : ℤ) : Option ℤ :=
  let b := search_bounds hint min_factor max_factor
  let results := scale_candidates im hint min_factor max_factor
  match results.argmin (fun c => c.combined) with
  | none => none
  | some best =>
    match hint with
    | some g =>
      if b ≠ (min_factor, max_factor) then
        let closest := (results.argmin (fun c => |(c.factor : ℚ) - g|)).getD best
        some (if closest.combined < best.combined * (12/10) then closest.factor else best.factor)
      else some best.factor
    | none => some best.factor

/-- The amended selection rule: as `claimed_selection_C2`, but the hint
branch requires the (truthy) hint to have raised the lower search bound
(`search_min != min_factor`), matching the source condition. -/
def amended_selection_C2 (im : Img) (hint : Option ℚ) (min_factor max_factor : ℤ) : Option ℤ :=
  let b := search_bounds hint min_factor max_factor
  let results := scale_candidates im hint min_factor max_factor
  match results.argmin (fun c => c.combined) with
  | none => none
  | some best =>
    match truthyHint hint with
    | some g =>
      if b.1 ≠ min_factor then
        let closest := (results.argmin (fun c => |(c.factor : ℚ) - g|)).getD best
        some (if closest.combined < best.combined * (12/10) then closest.factor else best.factor)
      else some best.factor
    | none => some best.factor

end PD

namespace BU

/-- The phase offsets `find_best_phase_for_scale` searches: the coarse grid,
then the refinement window around the coarse best. -/
def searched_phases (im : Img) (scale : Nat) : List (Nat × Nat) :=
  coarsePhases scale ++
    finePhases scale (phaseFold im scale (coarsePhases scale) ((0, 0), ⊤)).1

/-- Minimum of a list of extended variances (`⊤` for the empty list). -/
def varListMin (l : List (WithTop ℚ)) : WithTop ℚ :=
  l.foldl min ⊤

/-- Claim side of C3 (a): the minimum per-block variance over the searched
phase offsets of a scale. -/
def spec_min_phase_variance (im : Img) (scale : Nat) : WithTop ℚ :=
  varListMin ((searched_phases im scale).map (fun p =>
    calculate_block_variance_fast im scale p.1 p.2))

/-- Claim side of C3 (b): the minimum, across all scales in range, of the
per-scale best-phase variances. -/
def spec_global_min_variance (im : Img) (min_scale max_scale : Nat) : WithTop ℚ :=
  varListMin (((rangeLH min_scale (max_scale + 1)).map
    (fun s => (find_best_phase_for_scale im s).2)))

/-- Claim side of C3 (b): the threshold of 2 times the global minimum. -/
def spec_threshold (im : Img) (min_scale max_scale : Nat) : WithTop ℚ :=
  WithTop.map (fun q => 2 * q) (spec_global_min_variance im min_scale max_scale)

end BU

/-!  Concrete inputs used by witnesses and counterexamples.  -/

/-- 23×23 grayscale deterministic-noise test image, fully opaque. -/
def imgC2 : Img :=
  ⟨23, 23, fun y x =>
    let v := 100 + (x * 37 + y * 101 + (x * y % 13) * 29) % 23
    ⟨v, v, v, 255⟩⟩

/-- 8×8 image: pure-black one-pixel border ring over a uniform
`(200,200,200)` background, fully opaque. -/
def imgC4 : Img :=
  ⟨8, 8, fun y x =>
    if y = 0 ∨ y = 7 ∨ x = 0 ∨ x = 7 then ⟨0, 0, 0, 255⟩ else ⟨200, 200, 200, 255⟩⟩

/-- 10×10 image whose top-left 8×8 corner is a regular two-color
checkerboard; the remaining L-strip holds a third color. -/
def imgC5 : Img :=
  ⟨10, 10, fun y x =>
    if y < 8 ∧ x < 8 then
      if (x + y) % 2 = 0 then ⟨10, 20, 30, 255⟩ else ⟨40, 50, 60, 255⟩
    else ⟨70, 80, 90, 255⟩⟩

/-- 4×4 two-color checkerboard (witness for the amended checkerboard claim). -/
def imgC5w : Img :=
  ⟨4, 4, fun y x =>
    if (x + y) % 2 = 0 then ⟨10, 20, 30, 255⟩ else ⟨40, 50, 60, 255⟩⟩

/-- 8×8 uniform opaque image (witness input for the score-formula claim). -/
def imgC1w : Img :=
  ⟨8, 8, fun _ _ => ⟨7, 7, 7, 255⟩⟩

/-- 4×4 opaque image: too small for any factor in range (witness for the
empty-search claim). -/
def imgC7w : Img :=
  ⟨4, 4, fun _ _ => ⟨9, 9, 9, 255⟩⟩

/-- 16×16 fully transparent image (witness for the fine-tune claim). -/
def imgC10w : Img :=
  ⟨16, 16, fun _ _ => ⟨0, 0, 0, 0⟩⟩

/-- 10×10 image with a mild two-tone pattern (witness for Strategy B). -/
def imgC3w : Img :=
  ⟨10, 10, fun y x =>
    if (x / 2 + y / 2) % 2 = 0 then ⟨30, 60, 90, 255⟩ else ⟨120, 150, 180, 255⟩⟩

/-- 5×3 opaque image (witness for the padding claim). -/
def imgC8w : Img :=
  ⟨5, 3, fun _ _ => ⟨1, 2, 3, 255⟩⟩

/-- Settings used by the fine-tune pipeline witness: background removal
off, no trim, fine-tune on. -/
def settingsC10w : PD.Settings :=
  { bg_removal_mode := "none", auto_trim := false }

/-!  Generic lemmas about the embedding primitives.  -/

theorem anyN_eq_true_iff (n : Nat) (p : Nat → Bool) :
    anyN n p = true ↔ ∃ i, i < n ∧ p i = true := by
  induction n with
  | zero => simp [anyN]
  | succ m ih =>
    simp only [anyN, Bool.or_eq_true, ih]
    constructor
    · rintro (⟨i, hi, hp⟩ | hp)
      · exact ⟨i, Nat.lt_succ_of_lt hi, hp⟩
      · exact ⟨m, Nat.lt_succ_self m, hp⟩
    · rintro ⟨i, hi, hp⟩
      rcases Nat.lt_succ_iff_lt_or_eq.mp hi with h | h
      · exact Or.inl ⟨i, h, hp⟩
      · subst h; exact Or.inr hp

theorem any2_eq_true_iff (h w : Nat) (p : Nat → Nat → Bool) :
    any2 h w p = true ↔ ∃ y, y < h ∧ ∃ x, x < w ∧ p y x = true := by
  unfold any2
  rw [anyN_eq_true_iff]
  constructor
  · rintro ⟨y, hy, hp⟩
    exact ⟨y, hy, (anyN_eq_true_iff _ _).mp hp⟩
  · rintro ⟨y, hy, hx⟩
    exact ⟨y, hy, (anyN_eq_true_iff _ _).mpr hx⟩

theorem countN_mono (n : Nat) (p q : Nat → Bool) (h : ∀ i, p i = true → q i = true) :
    countN n p ≤ countN n q := by
  induction n with
  | zero => exact Nat.le_refl _
  | succ m ih =>
    simp only [countN]
    have hstep : (if p m then 1 else 0) ≤ (if q m then 1 else 0) := by
      by_cases hp : p m
      · simp [hp, h m hp]
      · by_cases hq : q m <;> simp [hp, hq]
    omega

theorem count2_mono (h w : Nat) (p q : Nat → Nat → Bool)
    (hpq : ∀ y x, p y x = true → q y x = true) : count2 h w p ≤ count2 h w q := by
  unfold count2
  induction h with
  | zero => exact Nat.le_refl _
  | succ m ih =>
    simp only [sumNatN]
    have := countN_mono w (fun x => p m x) (fun x => q m x) (fun x => hpq m x)
    omega

theorem findFirst_none_spec (p : Nat → Bool) :
    ∀ n, findFirst p n = none → ∀ i, i < n → p i = false := by
  intro n
  induction n with
  | zero => intro _ i hi; omega
  | succ m ih =>
    intro hn i hi
    unfold findFirst at hn
    rcases hf : findFirst p m with _ | j
    · rw [hf] at hn
      by_cases hpm : p m
      · simp [hpm] at hn
      · rcases Nat.lt_succ_iff_lt_or_eq.mp hi with h | h
        · exact ih hf i h
        · subst h; exact Bool.of_not_eq_true hpm
    · rw [hf] at hn; exact absurd hn (by simp)

theorem findFirst_some_spec (p : Nat → Bool) :
    ∀ n i, findFirst p n = some i → i < n ∧ p i = true ∧ ∀ j, j < i → p j = false := by
  intro n
  induction n with
  | zero => intro i hi; exact absurd hi (by simp [findFirst])
  | succ m ih =>
    intro i hi
    unfold findFirst at hi
    rcases hf : findFirst p m with _ | j
    · rw [hf] at hi
      by_cases hpm : p m
      · simp only [hpm, if_true] at hi
        cases hi
        exact ⟨Nat.lt_succ_self m, hpm, fun j hj => findFirst_none_spec p m hf j hj⟩
      · simp [hpm] at hi
    · rw [hf] at hi
      injection hi with hij
      subst hij
      obtain ⟨h1, h2, h3⟩ := ih _ hf
      exact ⟨Nat.lt_succ_of_lt h1, h2, h3⟩

theorem findFirst_isSome_of (p : Nat → Bool) :
    ∀ n i, i < n → p i = true → ∃ j, findFirst p n = some j := by
  intro n
  induction n with
  | zero => intro i hi; omega
  | succ m ih =>
    intro i hi hp
    unfold findFirst
    rcases hf : findFirst p m with _ | j
    · rcases Nat.lt_succ_iff_lt_or_eq.mp hi with h | h
      · obtain ⟨j, hj⟩ := ih i h hp
        rw [hj] at hf; exact absurd hf (by simp)
      · subst h; simp [hp]
    · exact ⟨j, rfl⟩

theorem findLast_some_spec (p : Nat → Bool) :
    ∀ n i, findLast p n = some i → i < n ∧ p i = true ∧ ∀ j, i < j → j < n → p j = false := by
  intro n
  induction n with
  | zero => intro i hi; exact absurd hi (by simp [findLast])
  | succ m ih =>
    intro i hi
    unfold findLast at hi
    by_cases hpm : p m
    · simp only [hpm, if_true] at hi
      cases hi
      exact ⟨Nat.lt_succ_self m, hpm, fun j hj1 hj2 => by omega⟩
    · simp only [hpm, if_false] at hi
      obtain ⟨h1, h2, h3⟩ := ih i hi
      refine ⟨Nat.lt_succ_of_lt h1, h2, fun j hj1 hj2 => ?_⟩
      rcases Nat.lt_succ_iff_lt_or_eq.mp hj2 with h | h
      · exact h3 j hj1 h
      · subst h; exact Bool.of_not_eq_true hpm

theorem findLast_isSome_of (p : Nat → Bool) :
    ∀ n i, i < n → p i = true → ∃ j, findLast p n = some j := by
  intro n
  induction n with
  | zero => intro i hi; omega
  | succ m ih =>
    intro i hi hp
    unfold findLast
    by_cases hpm : p m
    · exact ⟨m, by simp [hpm]⟩
    · simp only [hpm, if_false]
      rcases Nat.lt_succ_iff_lt_or_eq.mp hi with h | h
      · exact ih i h hp
      · subst h; exact absurd hp (by simp [hpm])


theorem pyFoldMin_mem {α β : Type} [LinearOrder β] (f : α → β) :
    ∀ (l : List α) (b : α), pyFoldMin f b l = b ∨ pyFoldMin f b l ∈ l := by
  intro l
  induction l with
  | nil => intro b; exact Or.inl rfl
  | cons x xs ih =>
    intro b
    by_cases hc : f x < f b
    · simp only [pyFoldMin, hc, if_true]
      rcases ih x with h | h
      · rw [h]; exact Or.inr (List.mem_cons_self x xs)
      · exact Or.inr (List.mem_cons_of_mem x h)
    · simp only [pyFoldMin, hc, if_false]
      rcases ih b with h | h
      · exact Or.inl h
      · exact Or.inr (List.mem_cons_of_mem x h)

theorem pyFoldMin_le {α β : Type} [LinearOrder β] (f : α → β) :
    ∀ (l : List α) (b : α),
      f (pyFoldMin f b l) ≤ f b ∧ ∀ x ∈ l, f (pyFoldMin f b l) ≤ f x := by
  intro l
  induction l with
  | nil => intro b; exact ⟨le_refl _, by simp⟩
  | cons x xs ih =>
    intro b
    by_cases hc : f x < f b
    · simp only [pyFoldMin, hc, if_true]
      obtain ⟨h1, h2⟩ := ih x
      refine ⟨le_trans h1 (le_of_lt hc), ?_⟩
      intro y hy
      rcases List.mem_cons.mp hy with rfl | hmem
      · exact h1
      · exact h2 y hmem
    · simp only [pyFoldMin, hc, if_false]
      obtain ⟨h1, h2⟩ := ih b
      refine ⟨h1, ?_⟩
      intro y hy
      rcases List.mem_cons.mp hy with rfl | hmem
      · exact le_trans h1 (le_of_not_lt hc)
      · exact h2 y hmem

theorem pyMinBy_spec {α β : Type} [LinearOrder β] (f : α → β) (l : List α) (m : α)
    (hm : pyMinBy f l = some m) : m ∈ l ∧ ∀ x ∈ l, f m ≤ f x := by
  cases l with
  | nil => exact absurd hm (by simp [pyMinBy])
  | cons x xs =>
    simp only [pyMinBy] at hm
    injection hm with hm
    subst hm
    constructor
    · rcases pyFoldMin_mem f xs x with h | h
      · rw [h]; exact List.mem_cons_self x xs
      · exact List.mem_cons_of_mem x h
    · intro y hy
      obtain ⟨h1, h2⟩ := pyFoldMin_le f xs x
      rcases List.mem_cons.mp hy with rfl | hmem
      · exact h1
      · exact h2 y hmem

theorem pyFoldMax_mem {α β : Type} [LinearOrder β] (f : α → β) :
    ∀ (l : List α) (b : α), pyFoldMax f b l = b ∨ pyFoldMax f b l ∈ l := by
  intro l
  induction l with
  | nil => intro b; exact Or.inl rfl
  | cons x xs ih =>
    intro b
    by_cases hc : f b < f x
    · simp only [pyFoldMax, hc, if_true]
      rcases ih x with h | h
      · rw [h]; exact Or.inr (List.mem_cons_self x xs)
      · exact Or.inr (List.mem_cons_of_mem x h)
    · simp only [pyFoldMax, hc, if_false]
      rcases ih b with h | h
      · exact Or.inl h
      · exact Or.inr (List.mem_cons_of_mem x h)

theorem pyFoldMax_ge {α β : Type} [LinearOrder β] (f : α → β) :
    ∀ (l : List α) (b : α),
      f b ≤ f (pyFoldMax f b l) ∧ ∀ x ∈ l, f x ≤ f (pyFoldMax f b l) := by
  intro l
  induction l with
  | nil => intro b; exact ⟨le_refl _, by simp⟩
  | cons x xs ih =>
    intro b
    by_cases hc : f b < f x
    · simp only [pyFoldMax, hc, if_true]
      obtain ⟨h1, h2⟩ := ih x
      refine ⟨le_trans (le_of_lt hc) h1, ?_⟩
      intro y hy
      rcases List.mem_cons.mp hy with rfl | hmem
      · exact h1
      · exact h2 y hmem
    · simp only [pyFoldMax, hc, if_false]
      obtain ⟨h1, h2⟩ := ih b
      refine ⟨h1, ?_⟩
      intro y hy
      rcases List.mem_cons.mp hy with rfl | hmem
      · exact le_trans (le_of_not_lt hc) h1
      · exact h2 y hmem

theorem pyMaxBy_spec {α β : Type} [LinearOrder β] (f : α → β) (l : List α) (m : α)
    (hm : pyMaxBy f l = some m) : m ∈ l ∧ ∀ x ∈ l, f x ≤ f m := by
  cases l with
  | nil => exact absurd hm (by simp [pyMaxBy])
  | cons x xs =>
    simp only [pyMaxBy] at hm
    injection hm with hm
    subst hm
    constructor
    · rcases pyFoldMax_mem f xs x with h | h
      · rw [h]; exact List.mem_cons_self x xs
      · exact List.mem_cons_of_mem x h
    · intro y hy
      obtain ⟨h1, h2⟩ := pyFoldMax_ge f xs x
      rcases List.mem_cons.mp hy with rfl | hmem
      · exact h1
      · exact h2 y hmem

theorem foldl_argAux_min_eq {α β : Type} [LinearOrder β] (f : α → β) :
    ∀ (l : List α) (b : α),
      l.foldl (List.argAux fun u v => f u < f v) (some b) = some (pyFoldMin f b l) := by
  intro l
  induction l with
  | nil => intro b; rfl
  | cons x xs ih =>
    intro b
    simp only [List.foldl_cons, List.argAux, pyFoldMin]
    by_cases hc : f x < f b
    · simp only [hc, if_true]
      exact ih x
    · simp only [hc, if_false]
      exact ih b

theorem pyMinBy_eq_argmin {α β : Type} [LinearOrder β] (f : α → β) (l : List α) :
    pyMinBy f l = l.argmin f := by
  cases l with
  | nil => rfl
  | cons x xs =>
    simp only [pyMinBy, List.argmin, List.foldl_cons]
    rw [show (List.argAux (fun u v => f u < f v) none x) = some x from rfl]
    exact (foldl_argAux_min_eq f xs x).symm

theorem foldl_argAux_max_eq {α β : Type} [LinearOrder β] (f : α → β) :
    ∀ (l : List α) (b : α),
      l.foldl (List.argAux fun u v => f v < f u) (some b) = some (pyFoldMax f b l) := by
  intro l
  induction l with
  | nil => intro b; rfl
  | cons x xs ih =>
    intro b
    simp only [List.foldl_cons, List.argAux, pyFoldMax]
    by_cases hc : f b < f x
    · simp only [hc, if_true]
      exact ih x
    · simp only [hc, if_false]
      exact ih b

theorem pyMaxBy_eq_argmax {α β : Type} [LinearOrder β] (f : α → β) (l : List α) :
    pyMaxBy f l = l.argmax f := by
  cases l with
  | nil => rfl
  | cons x xs =>
    simp only [pyMaxBy, List.argmax, List.foldl_cons]
    rw [show (List.argAux (fun u v => f v < f u) none x) = some x from rfl]
    exact (foldl_argAux_max_eq f xs x).symm

theorem intRange_mem (a b x : ℤ) : x ∈ intRange a b ↔ a ≤ x ∧ x ≤ b := by
  unfold intRange
  simp only [List.mem_map, List.mem_range]
  constructor
  · rintro ⟨k, hk, rfl⟩
    omega
  · rintro ⟨h1, h2⟩
    exact ⟨(x - a).toNat, by omega, by omega⟩

theorem rangeLH_mem (lo hi x : Nat) : x ∈ rangeLH lo hi ↔ lo ≤ x ∧ x < hi := by
  unfold rangeLH
  simp only [List.mem_map, List.mem_range]
  constructor
  · rintro ⟨k, hk, rfl⟩
    omega
  · rintro ⟨h1, h2⟩
    exact ⟨x - lo, by omega, by omega⟩


/-!  Canvas padding (claim C8).  -/

theorem PD.le_ceilDiv_mul (n m : Nat) (hm : 0 < m) : n ≤ PD.ceilDiv n m * m := by
  unfold PD.ceilDiv
  have h1 := Nat.div_add_mod (n + m - 1) m
  have h2 : (n + m - 1) % m < m := Nat.mod_lt _ hm
  have h3 : (n + m - 1) / m * m = m * ((n + m - 1) / m) := Nat.mul_comm _ _
  rw [h3]
  omega

theorem PD.ceilDiv_mul_le (n m j : Nat) (hm : 0 < m) (hn : n ≤ m * j) :
    PD.ceilDiv n m * m ≤ m * j := by
  unfold PD.ceilDiv
  have h1 : (n + m - 1) / m ≤ (m * j + (m - 1)) / m := by
    apply Nat.div_le_div_right
    omega
  have h2 : (m * j + (m - 1)) / m = j + (m - 1) / m := Nat.mul_add_div hm j (m - 1)
  have h3 : (m - 1) / m = 0 := Nat.div_eq_of_lt (by omega)
  have h4 : (n + m - 1) / m ≤ j := by omega
  calc (n + m - 1) / m * m ≤ j * m := Nat.mul_le_mul_right m h4
    _ = m * j := Nat.mul_comm _ _

theorem PD.ceilDiv_mul_of_dvd (n m : Nat) (hm : 0 < m) (hd : m ∣ n) :
    PD.ceilDiv n m * m = n := by
  obtain ⟨j, rfl⟩ := hd
  apply Nat.le_antisymm
  · exact PD.ceilDiv_mul_le (m * j) m j hm (Nat.le_refl _)
  · exact PD.le_ceilDiv_mul (m * j) m hm

theorem PD.pad_width (im : Img) (m : Nat) :
    (PD.pad_to_multiple im m).width = PD.ceilDiv im.width m * m ∧
      (PD.pad_to_multiple im m).height = PD.ceilDiv im.height m * m := by
  unfold PD.pad_to_multiple
  dsimp only
  split
  · rename_i hcond
    exact ⟨hcond.1.symm, hcond.2.symm⟩
  · exact ⟨rfl, rfl⟩

/-- Claim C8: for `m ≥ 1` the padded width and height are the least
multiples of `m` not below the originals (in particular they are divisible
by `m`), and padding a second time with the same `m` is the identity. -/
theorem pad_to_multiple_spec (im : Img) (m : Nat) (hm : 1 ≤ m) :
    (PD.pad_to_multiple im m).width % m = 0 ∧
    (PD.pad_to_multiple im m).height % m = 0 ∧
    im.width ≤ (PD.pad_to_multiple im m).width ∧
    im.height ≤ (PD.pad_to_multiple im m).height ∧
    (∀ k, k % m = 0 → im.width ≤ k → (PD.pad_to_multiple im m).width ≤ k) ∧
    (∀ k, k % m = 0 → im.height ≤ k → (PD.pad_to_multiple im m).height ≤ k) ∧
    PD.pad_to_multiple (PD.pad_to_multiple im m) m = PD.pad_to_multiple im m := by
  have hm0 : 0 < m := hm
  obtain ⟨hw, hh⟩ := PD.pad_width im m
  refine ⟨?_, ?_, ?_, ?_, ?_, ?_, ?_⟩
  · rw [hw]; exact Nat.mul_mod_left _ _
  · rw [hh]; exact Nat.mul_mod_left _ _
  · rw [hw]; exact PD.le_ceilDiv_mul _ _ hm0
  · rw [hh]; exact PD.le_ceilDiv_mul _ _ hm0
  · intro k hk hle
    rw [hw]
    obtain ⟨j, rfl⟩ := Nat.dvd_of_mod_eq_zero hk
    exact PD.ceilDiv_mul_le _ _ _ hm0 hle
  · intro k hk hle
    rw [hh]
    obtain ⟨j, rfl⟩ := Nat.dvd_of_mod_eq_zero hk
    exact PD.ceilDiv_mul_le _ _ _ hm0 hle
  · have hdw : m ∣ (PD.pad_to_multiple im m).width := by
      rw [hw]; exact dvd_mul_left m _
    have hdh : m ∣ (PD.pad_to_multiple im m).height := by
      rw [hh]; exact dvd_mul_left m _
    set P := PD.pad_to_multiple im m with hP
    have hcond : PD.ceilDiv P.width m * m = P.width ∧ PD.ceilDiv P.height m * m = P.height :=
      ⟨PD.ceilDiv_mul_of_dvd _ _ hm0 hdw, PD.ceilDiv_mul_of_dvd _ _ hm0 hdh⟩
    show PD.pad_to_multiple P m = P
    unfold PD.pad_to_multiple
    dsimp only
    rw [if_pos hcond]

/-- Witness for C8 at a concrete input: a 5×3 image padded to multiples
of 4 gets an 8×4 canvas, at the least multiples, and re-padding is a
no-op. -/
theorem pad_to_multiple_spec_witness :
    1 ≤ 4 ∧
    ((PD.pad_to_multiple imgC8w 4).width % 4 = 0 ∧
     (PD.pad_to_multiple imgC8w 4).height % 4 = 0 ∧
     imgC8w.width ≤ (PD.pad_to_multiple imgC8w 4).width ∧
     imgC8w.height ≤ (PD.pad_to_multiple imgC8w 4).height ∧
     (∀ k, k % 4 = 0 → imgC8w.width ≤ k → (PD.pad_to_multiple imgC8w 4).width ≤ k) ∧
     (∀ k, k % 4 = 0 → imgC8w.height ≤ k → (PD.pad_to_multiple imgC8w 4).height ≤ k) ∧
     PD.pad_to_multiple (PD.pad_to_multiple imgC8w 4) 4 = PD.pad_to_multiple imgC8w 4) :=
  ⟨by decide, pad_to_multiple_spec imgC8w 4 (by decide)⟩


/-!  Content trimmer (claim C9).  -/

theorem PD.opaque_crop (im : Img) (l u r d y x : Nat) :
    opaqueAt (PD.crop im l u r d) y x = opaqueAt im (u + y) (l + x) := rfl

theorem PD.rowHas_iff (im : Img) (y : Nat) :
    PD.rowHas im y = true ↔ ∃ x, x < im.width ∧ opaqueAt im y x = true :=
  anyN_eq_true_iff _ _

theorem PD.colHas_iff (im : Img) (x : Nat) :
    PD.colHas im x = true ↔ ∃ y, y < im.height ∧ opaqueAt im y x = true :=
  anyN_eq_true_iff _ _

/-- Claim C9: the content trimmer is idempotent. -/
theorem trim_transparency_idempotent (im : Img) :
    PD.trim_transparency (PD.trim_transparency im) = PD.trim_transparency im := by
  by_cases hv : has_visible im
  · -- some pixel is visible: the trim crops to the bounding box
    obtain ⟨y0, hy0, x0, hx0, hop⟩ := (any2_eq_true_iff _ _ _).mp hv
    have hcol0 : PD.colHas im x0 = true := (PD.colHas_iff im x0).mpr ⟨y0, hy0, hop⟩
    have hrow0 : PD.rowHas im y0 = true := (PD.rowHas_iff im y0).mpr ⟨x0, hx0, hop⟩
    obtain ⟨c0, hc0⟩ := findFirst_isSome_of (PD.colHas im) im.width x0 hx0 hcol0
    obtain ⟨r0, hr0⟩ := findFirst_isSome_of (PD.rowHas im) im.height y0 hy0 hrow0
    obtain ⟨c1, hc1⟩ := findLast_isSome_of (PD.colHas im) im.width x0 hx0 hcol0
    obtain ⟨r1, hr1⟩ := findLast_isSome_of (PD.rowHas im) im.height y0 hy0 hrow0
    obtain ⟨hc0w, hc0has, hc0min⟩ := findFirst_some_spec _ _ _ hc0
    obtain ⟨hr0h, hr0has, hr0min⟩ := findFirst_some_spec _ _ _ hr0
    obtain ⟨hc1w, hc1has, hc1max⟩ := findLast_some_spec _ _ _ hc1
    obtain ⟨hr1h, hr1has, hr1max⟩ := findLast_some_spec _ _ _ hr1
    -- the bounding box is well-formed
    have hcle : c0 ≤ c1 := by
      by_contra hlt
      exact absurd hc0has (by simp [hc1max c0 (by omega) hc0w])
    have hrle : r0 ≤ r1 := by
      by_contra hlt
      exact absurd hr0has (by simp [hr1max r0 (by omega) hr0h])
    have htrim : PD.trim_transparency im = PD.crop im c0 r0 (c1 + 1) (r1 + 1) := by
      unfold PD.trim_transparency
      rw [if_pos hv, hc0, hr0, hc1, hr1]
      rfl
    set t := PD.crop im c0 r0 (c1 + 1) (r1 + 1) with ht
    have htw : t.width = c1 + 1 - c0 := rfl
    have hth : t.height = r1 + 1 - r0 := rfl
    have htw0 : 0 < t.width := by omega
    have hth0 : 0 < t.height := by omega
    -- bounds of any visible pixel of the original
    have hrowband : ∀ y, y < im.height → PD.rowHas im y = true → r0 ≤ y ∧ y ≤ r1 := by
      intro y hy hhas
      constructor
      · by_contra h
        exact absurd hhas (by simp [hr0min y (by omega)])
      · by_contra h
        exact absurd hhas (by simp [hr1max y (by omega) hy])
    have hcolband : ∀ x, x < im.width → PD.colHas im x = true → c0 ≤ x ∧ x ≤ c1 := by
      intro x hx hhas
      constructor
      · by_contra h
        exact absurd hhas (by simp [hc0min x (by omega)])
      · by_contra h
        exact absurd hhas (by simp [hc1max x (by omega) hx])
    -- the four extreme rows/columns of the crop still hold visible pixels
    have hcol_t : ∀ x, x < im.width → PD.colHas im x = true → PD.colHas t (x - c0) = true := by
      intro x hx hhas
      obtain ⟨y, hy, hop2⟩ := (PD.colHas_iff im x).mp hhas
      have hyband := hrowband y hy ((PD.rowHas_iff im y).mpr ⟨x, hx, hop2⟩)
      have hxband := hcolband x hx hhas
      refine (PD.colHas_iff t (x - c0)).mpr ⟨y - r0, by omega, ?_⟩
      rw [ht, PD.opaque_crop]
      have h1 : r0 + (y - r0) = y := by omega
      have h2 : c0 + (x - c0) = x := by omega
      rw [h1, h2]
      exact hop2
    have hrow_t : ∀ y, y < im.height → PD.rowHas im y = true → PD.rowHas t (y - r0) = true := by
      intro y hy hhas
      obtain ⟨x, hx, hop2⟩ := (PD.rowHas_iff im y).mp hhas
      have hxband := hcolband x hx ((PD.colHas_iff im x).mpr ⟨y, hy, hop2⟩)
      have hyband := hrowband y hy hhas
      refine (PD.rowHas_iff t (y - r0)).mpr ⟨x - c0, by omega, ?_⟩
      rw [ht, PD.opaque_crop]
      have h1 : r0 + (y - r0) = y := by omega
      have h2 : c0 + (x - c0) = x := by omega
      rw [h1, h2]
      exact hop2
    have hcol_t0 : PD.colHas t 0 = true := by
      have := hcol_t c0 hc0w hc0has
      rwa [Nat.sub_self] at this
    have hcol_t1 : PD.colHas t (t.width - 1) = true := by
      have := hcol_t c1 hc1w hc1has
      have heq : c1 - c0 = t.width - 1 := by omega
      rwa [heq] at this
    have hrow_t0 : PD.rowHas t 0 = true := by
      have := hrow_t r0 hr0h hr0has
      rwa [Nat.sub_self] at this
    have hrow_t1 : PD.rowHas t (t.height - 1) = true := by
      have := hrow_t r1 hr1h hr1has
      have heq : r1 - r0 = t.height - 1 := by omega
      rwa [heq] at this
    -- hence t is its own bounding box
    have hv_t : has_visible t = true := by
      obtain ⟨x, hx, hop2⟩ := (PD.rowHas_iff t 0).mp hrow_t0
      exact (any2_eq_true_iff _ _ _).mpr ⟨0, hth0, x, hx, hop2⟩
    have hff_c : findFirst (PD.colHas t) t.width = some 0 := by
      obtain ⟨j, hj⟩ := findFirst_isSome_of (PD.colHas t) t.width 0 htw0 hcol_t0
      obtain ⟨hjw, hjhas, hjmin⟩ := findFirst_some_spec _ _ _ hj
      have : j = 0 := by
        by_contra h
        exact absurd hcol_t0 (by simp [hjmin 0 (by omega)])
      rwa [this] at hj
    have hff_r : findFirst (PD.rowHas t) t.height = some 0 := by
      obtain ⟨j, hj⟩ := findFirst_isSome_of (PD.rowHas t) t.height 0 hth0 hrow_t0
      obtain ⟨hjw, hjhas, hjmin⟩ := findFirst_some_spec _ _ _ hj
      have : j = 0 := by
        by_contra h
        exact absurd hrow_t0 (by simp [hjmin 0 (by omega)])
      rwa [this] at hj
    have hfl_c : findLast (PD.colHas t) t.width = some (t.width - 1) := by
      obtain ⟨j, hj⟩ := findLast_isSome_of (PD.colHas t) t.width (t.width - 1) (by omega) hcol_t1
      obtain ⟨hjw, hjhas, hjmax⟩ := findLast_some_spec _ _ _ hj
      have : j = t.width - 1 := by
        by_contra h
        exact absurd hcol_t1 (by simp [hjmax (t.width - 1) (by omega) (by omega)])
      rwa [this] at hj
    have hfl_r : findLast (PD.rowHas t) t.height = some (t.height - 1) := by
      obtain ⟨j, hj⟩ := findLast_isSome_of (PD.rowHas t) t.height (t.height - 1) (by omega) hrow_t1
      obtain ⟨hjw, hjhas, hjmax⟩ := findLast_some_spec _ _ _ hj
      have : j = t.height - 1 := by
        by_contra h
        exact absurd hrow_t1 (by simp [hjmax (t.height - 1) (by omega) (by omega)])
      rwa [this] at hj
    -- trimming t is the identity crop
    have hfull : PD.crop t 0 0 t.width t.height = t := by
      unfold PD.crop
      simp only [Nat.sub_zero, Nat.zero_add]
    have htrim_t : PD.trim_transparency t = t := by
      unfold PD.trim_transparency
      rw [if_pos hv_t, hff_c, hff_r, hfl_c, hfl_r]
      have hw1 : t.width - 1 + 1 = t.width := by omega
      have hh1 : t.height - 1 + 1 = t.height := by omega
      show PD.crop t 0 0 (t.width - 1 + 1) (t.height - 1 + 1) = t
      rw [hw1, hh1]
      exact hfull
    rw [htrim]
    exact htrim_t
  · -- nothing visible: both trims are the identity
    have h1 : PD.trim_transparency im = im := by
      unfold PD.trim_transparency
      rw [if_neg hv]
    rw [h1, h1]


/-!  Background removal invariant (claim C6).  -/

theorem countOpaque_alpha_masked (im : Img) (M : Mask) :
    countOpaque ⟨im.width, im.height, fun y x =>
        ⟨(im.px y x).r, (im.px y x).g, (im.px y x).b,
          if maskGet M y x then 0 else (im.px y x).a⟩⟩ ≤ countOpaque im := by
  unfold countOpaque
  apply count2_mono
  intro y x hpx
  simp only [opaqueAt, decide_eq_true_eq] at hpx ⊢
  by_cases hb : maskGet M y x
  · rw [if_pos hb] at hpx
    omega
  · rwa [if_neg hb] at hpx

/-- Claim C6: for every RGBA image and settings mapping, background removal
never increases the number of visible (alpha > 0) pixels: flooded pixels get
alpha 0 and every other pixel keeps its alpha. -/
theorem remove_background_opaque_le (im : Img) (s : PD.Settings) :
    countOpaque (PD.remove_background_improved im s) ≤ countOpaque im := by
  unfold PD.remove_background_improved
  dsimp only
  split
  · exact Nat.le_refl _
  · exact countOpaque_alpha_masked im _


/-!  Strategy A scale search on a fully degenerate range (claim C7).  -/

theorem PD.grid_alignment_none_of_degenerate (im : Img) (f : ℚ)
    (h : pyRound ((im.width : ℚ) / f) < 8 ∨ pyRound ((im.height : ℚ) / f) < 8 ∨
      has_visible im = false) :
    PD.grid_alignment_score im f = none := by
  unfold PD.grid_alignment_score
  dsimp only
  by_cases hdim : pyRound ((im.width : ℚ) / f) < 8 ∨ pyRound ((im.height : ℚ) / f) < 8
  · rw [if_pos hdim]
  · rw [if_neg hdim]
    have hv : has_visible im = false := by tauto
    rw [hv]
    rfl

/-- Claim C7: when every factor in the searched range is degenerate (target
side below 8 pixels or no visible pixel), Strategy A's search returns the
input image unchanged at factor 1 (with the hint passed through), without
raising. -/
theorem find_optimal_scale_all_degenerate (im : Img) (hint : Option ℚ) (minF maxF : ℤ)
    (hdeg : ∀ f ∈ intRange (PD.search_bounds hint minF maxF).1
        (PD.search_bounds hint minF maxF).2,
      pyRound ((im.width : ℚ) / (f : ℚ)) < 8 ∨ pyRound ((im.height : ℚ) / (f : ℚ)) < 8 ∨
        has_visible im = false) :
    PD.find_optimal_scale im hint minF maxF = (im, 1, hint) := by
  have hcand : PD.scale_candidates im hint minF maxF = [] := by
    unfold PD.scale_candidates
    dsimp only
    rw [List.filterMap_eq_nil_iff]
    intro f hf
    unfold PD.candidateA
    rw [PD.grid_alignment_none_of_degenerate im _ (hdeg f hf)]
    rfl
  unfold PD.find_optimal_scale
  dsimp only
  rw [hcand]
  rfl

/-- Witness for C7: a 4×4 image is degenerate at every factor of the default
6–20 range, and the search returns it unchanged at factor 1. -/
theorem find_optimal_scale_all_degenerate_witness :
    (∀ f ∈ intRange (PD.search_bounds none 6 20).1 (PD.search_bounds none 6 20).2,
      pyRound ((imgC7w.width : ℚ) / (f : ℚ)) < 8 ∨
        pyRound ((imgC7w.height : ℚ) / (f : ℚ)) < 8 ∨ has_visible imgC7w = false) ∧
    PD.find_optimal_scale imgC7w none 6 20 = (imgC7w, 1, none) :=
  ⟨by decide, find_optimal_scale_all_degenerate imgC7w none 6 20 (by decide)⟩


/-!  Strategy A scoring formula (claim C1).  -/

/-- Claim C1: for an integer factor whose target sides round to at least 8
on an image with a visible pixel, `grid_alignment_score` returns exactly the
claimed alignment score together with the nearest-neighbor downsize, and the
candidate record used for selection carries exactly the claimed combined
score (alignment minus information content of the downsize over 1000). -/
theorem grid_alignment_score_formula (im : Img) (f : ℤ)
    (hw : 8 ≤ pyRound ((im.width : ℚ) / (f : ℚ)))
    (hh : 8 ≤ pyRound ((im.height : ℚ) / (f : ℚ)))
    (hv : has_visible im = true) :
    PD.grid_alignment_score im (f : ℚ) =
      some (PD.spec_alignment_score im f, PD.spec_down im f) ∧
    PD.candidateA im f =
      some ⟨f, PD.spec_down im f, PD.spec_alignment_score im f,
        PD.information_content (PD.spec_down im f), PD.spec_combined_score im f⟩ := by
  have hscore : PD.grid_alignment_score im (f : ℚ) =
      some (PD.spec_alignment_score im f, PD.spec_down im f) := by
    unfold PD.grid_alignment_score
    dsimp only
    rw [if_neg (by push_neg; omega), hv]
    rfl
  refine ⟨hscore, ?_⟩
  unfold PD.candidateA
  rw [hscore]
  rfl

/-- Witness for C1: an 8×8 uniform opaque image at factor 1 (target sides
round to 8; the reconstruction is exact, so every score is zero). -/
theorem grid_alignment_score_formula_witness :
    (8 ≤ pyRound ((imgC1w.width : ℚ) / ((1 : ℤ) : ℚ)) ∧
     8 ≤ pyRound ((imgC1w.height : ℚ) / ((1 : ℤ) : ℚ)) ∧
     has_visible imgC1w = true) ∧
    (PD.grid_alignment_score imgC1w ((1 : ℤ) : ℚ) =
        some (PD.spec_alignment_score imgC1w 1, PD.spec_down imgC1w 1) ∧
      PD.candidateA imgC1w 1 =
        some ⟨1, PD.spec_down imgC1w 1, PD.spec_alignment_score imgC1w 1,
          PD.information_content (PD.spec_down imgC1w 1), PD.spec_combined_score imgC1w 1⟩) :=
  ⟨⟨by decide, by decide, by decide⟩,
    grid_alignment_score_formula imgC1w 1 (by decide) (by decide) (by decide)⟩


/-!  Fine-tuning a fully transparent image (claim C10).  -/

theorem PD.grid_alignment_none_of_invisible (im : Img) (f : ℚ)
    (hv : has_visible im = false) : PD.grid_alignment_score im f = none :=
  PD.grid_alignment_none_of_degenerate im f (Or.inr (Or.inr hv))

theorem PD.fine_tune_scale_invisible (im : Img) (f0 : ℚ) (hint : Option ℚ)
    (hv : has_visible im = false) : PD.fine_tune_scale im f0 hint = (none, f0) := by
  unfold PD.fine_tune_scale
  dsimp only
  have hfold : ∀ (l : List ℚ),
      l.foldl (fun (st : Option (ℚ × Img) × ℚ) (f : ℚ) =>
        if f < 1 then st
        else
          match PD.grid_alignment_score im f with
          | none => st
          | some sd =>
            match st.1 with
            | none => (some (sd.1, sd.2), f)
            | some best => if sd.1 < best.1 then (some (sd.1, sd.2), f) else st)
        (none, f0) = (none, f0) := by
    intro l
    induction l with
    | nil => rfl
    | cons x xs ih =>
      rw [List.foldl_cons]
      by_cases hlt : x < 1
      · rw [if_pos hlt]; exact ih
      · rw [if_neg hlt, PD.grid_alignment_none_of_invisible im x hv]
        exact ih
  rw [hfold]
  rfl

theorem PD.scale_candidates_invisible (im : Img) (hint : Option ℚ) (minF maxF : ℤ)
    (hv : has_visible im = false) : PD.scale_candidates im hint minF maxF = [] := by
  unfold PD.scale_candidates
  dsimp only
  rw [List.filterMap_eq_nil_iff]
  intro f hf
  unfold PD.candidateA
  rw [PD.grid_alignment_none_of_invisible im _ hv]
  rfl

/-- Claim C10: the fractional fine-tuner returns `None` with the unchanged
initial factor for every fully transparent image, initial factor and grid
hint (every candidate factor is skipped because `grid_alignment_score`
returns the infinite-score sentinel on an invisible image); consequently,
when fine-tuning is enabled and the cleaned image is at least 16×16 but
fully transparent, the pipeline's image result is `None` — in the source the
subsequent padding/saving steps raise on it, so no output raster is
produced. -/
theorem fine_tune_invisible_and_pipeline (im' : Img) (f0 : ℚ) (hint' : Option ℚ)
    (im : Img) (s : PD.Settings) (hint : Option ℚ)
    (hv' : has_visible im' = false)
    (hv : has_visible (PD.cleaned_image im s) = false)
    (hw : 16 ≤ (PD.cleaned_image im s).width)
    (hh : 16 ≤ (PD.cleaned_image im s).height)
    (hft : s.enable_fine_tune = true) :
    PD.fine_tune_scale im' f0 hint' = (none, f0) ∧
      (PD.downscale_image im s hint).1 = none := by
  refine ⟨PD.fine_tune_scale_invisible im' f0 hint' hv', ?_⟩
  unfold PD.downscale_image
  dsimp only
  have hfr : PD.find_optimal_scale (PD.cleaned_image im s) hint 6 20 =
      (PD.cleaned_image im s, 1, hint) := by
    unfold PD.find_optimal_scale
    dsimp only
    rw [PD.scale_candidates_invisible _ _ _ _ hv]
    rfl
  rw [hfr]
  rw [PD.fine_tune_scale_invisible _ _ _ hv]
  dsimp only
  by_cases hpad : s.pad_canvas
  · rw [if_pos hpad, if_pos ⟨hft, hw, hh⟩]
    rfl
  · rw [if_neg hpad, if_pos ⟨hft, hw, hh⟩]

/-- Witness for C10: a 16×16 fully transparent image through the pipeline
with background removal disabled. -/
theorem fine_tune_invisible_and_pipeline_witness :
    (has_visible imgC10w = false ∧
     has_visible (PD.cleaned_image imgC10w settingsC10w) = false ∧
     16 ≤ (PD.cleaned_image imgC10w settingsC10w).width ∧
     16 ≤ (PD.cleaned_image imgC10w settingsC10w).height ∧
     settingsC10w.enable_fine_tune = true) ∧
    (PD.fine_tune_scale imgC10w 1 none = (none, 1) ∧
      (PD.downscale_image imgC10w settingsC10w none).1 = none) :=
  ⟨⟨by decide, by decide, by decide, by decide, by decide⟩,
    fine_tune_invisible_and_pipeline imgC10w 1 none imgC10w settingsC10w none
      (by decide) (by decide) (by decide) (by decide) (by decide)⟩


/-!  Checkerboard detection (claim C5).  -/

theorem PD.insertSortedDistinct_mem (c : PD.RGBTriple) (l : List PD.RGBTriple) :
    ∀ x, x ∈ PD.insertSortedDistinct c l ↔ x = c ∨ x ∈ l := by
  induction l with
  | nil => intro x; simp [PD.insertSortedDistinct]
  | cons e es ih =>
    intro x
    unfold PD.insertSortedDistinct
    by_cases hce : c = e
    · rw [if_pos hce]
      subst hce
      simp only [List.mem_cons]
      try tauto
    · rw [if_neg hce]
      by_cases hle : PD.rgbLe c e
      · rw [if_pos hle]
        simp only [List.mem_cons]
        try tauto
      · rw [if_neg hle]
        simp only [List.mem_cons, ih x]
        try tauto

theorem PD.uniqueSorted_mem (l : List PD.RGBTriple) :
    ∀ x, x ∈ PD.uniqueSorted l ↔ x ∈ l := by
  unfold PD.uniqueSorted
  suffices h : ∀ (l : List PD.RGBTriple) (acc : List PD.RGBTriple) (x : PD.RGBTriple),
      x ∈ l.foldl (fun acc c => PD.insertSortedDistinct c acc) acc ↔ x ∈ acc ∨ x ∈ l by
    intro x
    rw [h l [] x]
    simp
  intro l
  induction l with
  | nil => intro acc x; simp
  | cons e es ih =>
    intro acc x
    rw [List.foldl_cons, ih]
    rw [PD.insertSortedDistinct_mem]
    simp only [List.mem_cons]
    tauto

theorem PD.cornerList_mem (im : Img) (ch cw y x : Nat) (hy : y < ch) (hx : x < cw) :
    PD.rgbAt im y x ∈ PD.cornerList im ch cw := by
  unfold PD.cornerList
  rw [List.mem_flatMap]
  refine ⟨y, (rangeLH_mem 0 ch y).mpr ⟨Nat.zero_le y, hy⟩, ?_⟩
  rw [List.mem_map]
  exact ⟨x, (rangeLH_mem 0 cw x).mpr ⟨Nat.zero_le x, hx⟩, rfl⟩

theorem rangeStep2_lt (hi x : Nat) (hx : x ∈ rangeStep 0 hi 2) : x < hi := by
  unfold rangeStep at hx
  simp only [List.mem_map, List.mem_range] at hx
  obtain ⟨k, hk, rfl⟩ := hx
  omega

theorem rangeStep2_zero_mem (hi : Nat) (h : 0 < hi) : 0 ∈ rangeStep 0 hi 2 := by
  unfold rangeStep
  simp only [List.mem_map, List.mem_range]
  exact ⟨0, by omega, rfl⟩

/-- C5, amended: whenever the corner sample region (top-left
`min(50,h) × min(50,w)`, not merely an 8×8 patch) contains exactly two
distinct colors, checkerboard detection classifies both as background — the
alternating sub-sample check passes automatically because every sampled
pixel is one of the only two corner colors. -/
theorem detect_checkerboard_two_corner_colors (im : Img) (c1 c2 : PD.RGBTriple)
    (h : PD.uniqueSorted (PD.cornerList im (min 50 im.height) (min 50 im.width)) = [c1, c2]) :
    PD.detect_checkerboard_pattern im = some (c1, c2) := by
  have hc1mem : c1 ∈ PD.cornerList im (min 50 im.height) (min 50 im.width) := by
    have hmem : c1 ∈ PD.uniqueSorted
        (PD.cornerList im (min 50 im.height) (min 50 im.width)) := by
      rw [h]; exact List.mem_cons_self c1 [c2]
    exact (PD.uniqueSorted_mem _ _).mp hmem
  obtain ⟨y1, hy1, hin1⟩ := List.mem_flatMap.mp hc1mem
  obtain ⟨x1, hx1, hpx1⟩ := List.mem_map.mp hin1
  have hch : 0 < min 50 im.height := by
    have := (rangeLH_mem 0 (min 50 im.height) y1).mp hy1
    omega
  have hcw : 0 < min 50 im.width := by
    have := (rangeLH_mem 0 (min 50 im.width) x1).mp hx1
    omega
  unfold PD.detect_checkerboard_pattern
  dsimp only
  rw [h]
  dsimp only
  set samples := (rangeStep 0 (min 20 (min 50 im.height)) 2).flatMap (fun i =>
    (rangeStep 0 (min 20 (min 50 im.width)) 2).map (fun j => (i, j))) with hsamples
  have hmemsample : (0, 0) ∈ samples := by
    rw [hsamples, List.mem_flatMap]
    refine ⟨0, rangeStep2_zero_mem _ (by omega), ?_⟩
    rw [List.mem_map]
    exact ⟨0, rangeStep2_zero_mem _ (by omega), rfl⟩
  have htotal : 0 < samples.length := List.length_pos.mpr (List.ne_nil_of_mem hmemsample)
  have hall : ∀ p ∈ samples,
      (decide (PD.rgbAt im p.1 p.2 = c1) || decide (PD.rgbAt im p.1 p.2 = c2)) = true := by
    intro p hp
    rw [hsamples, List.mem_flatMap] at hp
    obtain ⟨i, hi, hp2⟩ := hp
    rw [List.mem_map] at hp2
    obtain ⟨j, hj, rfl⟩ := hp2
    have hi2 : i < min 50 im.height := lt_of_lt_of_le (rangeStep2_lt _ _ hi) (by omega)
    have hj2 : j < min 50 im.width := lt_of_lt_of_le (rangeStep2_lt _ _ hj) (by omega)
    have hmem : PD.rgbAt im i j ∈ PD.uniqueSorted
        (PD.cornerList im (min 50 im.height) (min 50 im.width)) :=
      (PD.uniqueSorted_mem _ _).mpr (PD.cornerList_mem im _ _ i j hi2 hj2)
    rw [h] at hmem
    rcases List.mem_cons.mp hmem with heq | hmem2
    · simp [heq]
    · rcases List.mem_cons.mp hmem2 with heq | hmem3
      · simp [heq]
      · exact absurd hmem3 (by simp)
  have hcount : samples.countP (fun ij =>
      decide (PD.rgbAt im ij.1 ij.2 = c1) || decide (PD.rgbAt im ij.1 ij.2 = c2)) =
      samples.length := by
    rw [List.countP_eq_length]
    exact hall
  rw [if_pos]
  constructor
  · exact htotal
  · rw [hcount]
    have htz : ((samples.length : ℚ)) ≠ 0 := Nat.cast_ne_zero.mpr (by omega)
    rw [div_self htz]
    norm_num

/-- Witness for the amended C5: a 4×4 two-color checkerboard is detected,
with both colors reported. -/
theorem detect_checkerboard_two_corner_colors_witness :
    PD.uniqueSorted (PD.cornerList imgC5w (min 50 imgC5w.height) (min 50 imgC5w.width)) =
      [(10, 20, 30), (40, 50, 60)] ∧
    PD.detect_checkerboard_pattern imgC5w = some ((10, 20, 30), (40, 50, 60)) :=
  ⟨by decide, detect_checkerboard_two_corner_colors imgC5w (10, 20, 30) (40, 50, 60) (by decide)⟩

/-- Counterexample to C5 as stated: `imgC5`'s top-left 8×8 corner is a
regular two-color checkerboard, yet detection returns `None` (no color is
classified as background), because the corner region it inspects is the full
`min(50,·)`-sized corner, which contains a third color. -/
theorem detect_checkerboard_eight_by_eight_cex :
    count2 8 8 (fun y x =>
      decide (imgC5.px y x =
        if (x + y) % 2 = 0 then ⟨10, 20, 30, 255⟩ else ⟨40, 50, 60, 255⟩)) = 64 ∧
    PD.detect_checkerboard_pattern imgC5 = none := by
  constructor
  · decide
  · decide


/-!  Dark-line preservation acceptance test (claim C4).  -/

set_option maxRecDepth 100000

/-- C4 evidence: on an 8×8 image with a pure-black 1-pixel border over a
uniform (200,200,200) background, with default settings (conservative mode,
`preserve_dark_lines` enabled), background removal clears nothing: all 64
pixels stay visible, so the 36 interior background pixels are not set to
alpha 0 as the claim requires.  (The 1px dark ring is erased by the erosion
step of `detect_dark_lines`, the checkerboard detector classifies the two
image colors as the checkerboard pair, the content-edge mask covers the
whole border band, and the flood seed comes out empty.) -/
theorem remove_background_dark_border_not_cleared :
    ({} : PD.Settings).preserve_dark_lines = true ∧
    countOpaque imgC4 = 64 ∧
    countOpaque (PD.remove_background_improved imgC4 {}) = 64 := by
  refine ⟨rfl, by decide, by decide⟩


/-!  Hint preference in Strategy A selection (claim C2).  -/

/-- C2, amended: the selection of `find_optimal_scale` agrees with the
claimed rule once "narrowed the search range" is corrected to "raised the
lower search bound" (`search_min != min_factor`): a truthy hint that only
lowered the upper bound does not trigger the hint-preference branch.
(`amended_selection_C2` states the rule with `List.argmin`, which, like
Python `min`, returns the first minimum.) -/
theorem find_optimal_scale_selection_amended (im : Img) (hint : Option ℚ) (minF maxF : ℤ) :
    (PD.find_optimal_scale im hint minF maxF).2.1 =
      ((PD.amended_selection_C2 im hint minF maxF).map (fun f => (f : ℚ))).getD 1 := by
  unfold PD.find_optimal_scale PD.amended_selection_C2
  dsimp only
  rw [← pyMinBy_eq_argmin]
  cases hmb : pyMinBy (fun (c : PD.CandA) => c.combined)
      (PD.scale_candidates im hint minF maxF) with
  | none => rfl
  | some best =>
    cases hth : PD.truthyHint hint with
    | none => rfl
    | some g =>
      dsimp only
      rw [← pyMinBy_eq_argmin (fun (c : PD.CandA) => |(c.factor : ℚ) - g|)]
      by_cases hb : (PD.search_bounds hint minF maxF).1 ≠ minF
      · rw [if_pos hb, if_pos hb]
        by_cases hcl : ((pyMinBy (fun (c : PD.CandA) => |(c.factor : ℚ) - g|)
            (PD.scale_candidates im hint minF maxF)).getD best).combined <
            best.combined * (12/10)
        · rw [if_pos hcl, if_pos hcl]
          rfl
        · rw [if_neg hcl, if_neg hcl]
          rfl
      · rw [if_neg hb, if_neg hb]
        rfl

set_option maxHeartbeats 4000000

/-- Counterexample to C2 as stated: on `imgC2`, searched over factors 2–5
with raw hint 13/5 = 2.6, the hint exists and narrows the search range (the
bounds become (2, 4), not the configured (2, 5)), and the hint-closest
candidate (factor 3) scores within 20% of the best — so the claim as stated
predicts factor 3.  But the search returns factor 2 (the minimum combined
score), because the source only enters the hint-preference branch when the
hint raised the lower bound. -/
theorem find_optimal_scale_hint_cex :
    PD.search_bounds (some (13/5)) 2 5 = (2, 4) ∧
    PD.claimed_selection_C2 imgC2 (some (13/5)) 2 5 = some 3 ∧
    (PD.find_optimal_scale imgC2 (some (13/5)) 2 5).2.1 = 2 := by
  refine ⟨by decide, by decide, by decide⟩


/-!  Strategy B block-uniformity selection (claim C3).  -/

theorem sumN_nonneg (n : Nat) (f : Nat → ℚ) (h : ∀ i, 0 ≤ f i) : 0 ≤ sumN n f := by
  induction n with
  | zero => exact le_refl _
  | succ m ih => exact add_nonneg ih (h m)

theorem BU.variance_nonneg (im : Img) (scale px py : Nat) :
    (0 : WithTop ℚ) ≤ BU.calculate_block_variance_fast im scale px py := by
  unfold BU.calculate_block_variance_fast
  dsimp only
  split
  · exact le_top
  · refine WithTop.coe_le_coe.mpr ?_
    apply div_nonneg
    · apply sumN_nonneg; intro i
      apply sumN_nonneg; intro j
      apply div_nonneg
      · apply sumN_nonneg; intro u
        apply sumN_nonneg; intro v
        positivity
      · positivity
    · positivity

theorem foldl_min_le_init {β : Type} [LinearOrder β] :
    ∀ (l : List β) (st : β), l.foldl min st ≤ st := by
  intro l
  induction l with
  | nil => intro st; exact le_refl _
  | cons y ys ih =>
    intro st
    rw [List.foldl_cons]
    exact le_trans (ih (min st y)) (min_le_left _ _)

theorem foldl_min_le_mem {β : Type} [LinearOrder β] :
    ∀ (l : List β) (st x : β), x ∈ l → l.foldl min st ≤ x := by
  intro l
  induction l with
  | nil => intro st x hx; exact absurd hx (by simp)
  | cons y ys ih =>
    intro st x hx
    rw [List.foldl_cons]
    rcases List.mem_cons.mp hx with rfl | hmem
    · exact le_trans (foldl_min_le_init ys (min st x)) (min_le_right _ _)
    · exact ih (min st y) x hmem

theorem foldl_min_cases {β : Type} [LinearOrder β] :
    ∀ (l : List β) (st : β), l.foldl min st = st ∨ l.foldl min st ∈ l := by
  intro l
  induction l with
  | nil => intro st; exact Or.inl rfl
  | cons y ys ih =>
    intro st
    rw [List.foldl_cons]
    rcases ih (min st y) with h | h
    · rw [h]
      rcases min_choice st y with h2 | h2
      · exact Or.inl h2
      · exact Or.inr (by rw [h2]; exact List.mem_cons_self y ys)
    · exact Or.inr (List.mem_cons_of_mem y h)

theorem pyMinBy_key_foldl {α β : Type} [LinearOrder β] [OrderTop β] (f : α → β)
    (l : List α) (m : α) (hm : pyMinBy f l = some m) :
    (l.map f).foldl min ⊤ = f m := by
  obtain ⟨hmem, hle⟩ := pyMinBy_spec f l m hm
  apply le_antisymm
  · exact foldl_min_le_mem _ _ _ (List.mem_map_of_mem f hmem)
  · rcases foldl_min_cases (l.map f) ⊤ with h | h
    · rw [h]; exact le_top
    · obtain ⟨x, hx, hfx⟩ := List.mem_map.mp h
      rw [← hfx]
      exact hle x hx


theorem BU.phaseFold_var (im : Img) (scale : Nat) :
    ∀ (l : List (Nat × Nat)) (st : (Nat × Nat) × WithTop ℚ),
      (BU.phaseFold im scale l st).2 =
        (l.map (fun p => BU.calculate_block_variance_fast im scale p.1 p.2)).foldl min st.2 := by
  intro l
  induction l with
  | nil => intro st; rfl
  | cons p ps ih =>
    intro st
    rw [BU.phaseFold, List.map_cons, List.foldl_cons, ih]
    congr 1
    by_cases hv : BU.calculate_block_variance_fast im scale p.1 p.2 < st.2
    · rw [if_pos hv]
      exact (min_eq_right (le_of_lt hv)).symm
    · rw [if_neg hv]
      exact (min_eq_left (le_of_not_lt hv)).symm

theorem BU.find_best_phase_variance (im : Img) (scale : Nat) :
    (BU.find_best_phase_for_scale im scale).2 = BU.spec_min_phase_variance im scale := by
  unfold BU.find_best_phase_for_scale BU.spec_min_phase_variance BU.searched_phases
    BU.varListMin
  rw [List.map_append, List.foldl_append]
  rw [BU.phaseFold_var, BU.phaseFold_var]

theorem BU.find_best_phase_variance_nonneg (im : Img) (scale : Nat) :
    (0 : WithTop ℚ) ≤ (BU.find_best_phase_for_scale im scale).2 := by
  rw [BU.find_best_phase_variance]
  unfold BU.spec_min_phase_variance BU.varListMin
  generalize BU.searched_phases im scale = l
  rcases foldl_min_cases (l.map (fun p => BU.calculate_block_variance_fast im scale p.1 p.2)) ⊤
    with h | h
  · rw [h]; exact le_top
  · obtain ⟨p, hp, hfp⟩ := List.mem_map.mp h
    rw [← hfp]
    exact BU.variance_nonneg im scale p.1 p.2

theorem BU.all_results_mem (im : Img) (minS maxS : Nat) (r : BU.ResultB) :
    r ∈ BU.all_results im minS maxS ↔
      ∃ s, minS ≤ s ∧ s ≤ maxS ∧
        r = ⟨s, (BU.find_best_phase_for_scale im s).1.1,
          (BU.find_best_phase_for_scale im s).1.2, (BU.find_best_phase_for_scale im s).2⟩ := by
  unfold BU.all_results
  rw [List.mem_map]
  constructor
  · rintro ⟨s, hs, rfl⟩
    obtain ⟨h1, h2⟩ := (rangeLH_mem _ _ _).mp hs
    exact ⟨s, h1, by omega, rfl⟩
  · rintro ⟨s, h1, h2, rfl⟩
    exact ⟨s, (rangeLH_mem _ _ _).mpr ⟨h1, by omega⟩, rfl⟩

theorem pyMinBy_ne_nil {α β : Type} [LinearOrder β] (f : α → β) (l : List α) (h : l ≠ []) :
    ∃ m, pyMinBy f l = some m := by
  cases l with
  | nil => exact absurd rfl h
  | cons x xs => exact ⟨pyFoldMin f x xs, rfl⟩

theorem pyMaxBy_ne_nil {α β : Type} [LinearOrder β] (f : α → β) (l : List α) (h : l ≠ []) :
    ∃ m, pyMaxBy f l = some m := by
  cases l with
  | nil => exact absurd rfl h
  | cons x xs => exact ⟨pyFoldMax f x xs, rfl⟩

theorem BU.variance_map_all_results (im : Img) (minS maxS : Nat) :
    (BU.all_results im minS maxS).map (fun r => r.variance) =
      (rangeLH minS (maxS + 1)).map (fun s => (BU.find_best_phase_for_scale im s).2) := by
  unfold BU.all_results
  rw [List.map_map]
  rfl

theorem BU.global_min_eq (im : Img) (minS maxS : Nat) (me : BU.ResultB)
    (hme : pyMinBy (fun (r : BU.ResultB) => r.variance) (BU.all_results im minS maxS) = some me) :
    BU.spec_global_min_variance im minS maxS = me.variance := by
  unfold BU.spec_global_min_variance BU.varListMin
  rw [← BU.variance_map_all_results]
  exact pyMinBy_key_foldl _ _ _ hme


theorem BU.truthyHintB_of_pos (hint : Option ℚ) (hg : ∀ g, hint = some g → 0 < g) :
    BU.find_optimal_scale.truthyHintB hint = hint := by
  cases hint with
  | none => rfl
  | some g =>
    show (if g = 0 then Option.none else some g) = some g
    rw [if_neg (by have := hg g rfl; exact fun hz => absurd (hz ▸ this) (lt_irrefl 0))]

theorem BU.le_double_of_nonneg (v : WithTop ℚ) (hv : (0 : WithTop ℚ) ≤ v) :
    v ≤ WithTop.map (fun q => q * 2) v := by
  cases v with
  | top => exact le_top
  | coe q =>
    have hq : (0 : ℚ) ≤ q := WithTop.coe_le_coe.mp hv
    show ((q : ℚ) : WithTop ℚ) ≤ ((q * 2 : ℚ) : WithTop ℚ)
    exact WithTop.coe_le_coe.mpr (by linarith)

theorem BU.threshold_eq (im : Img) (minS maxS : Nat) (me : BU.ResultB)
    (hme : pyMinBy (fun (r : BU.ResultB) => r.variance) (BU.all_results im minS maxS) = some me) :
    WithTop.map (fun q => q * 2) me.variance = BU.spec_threshold im minS maxS := by
  unfold BU.spec_threshold
  rw [BU.global_min_eq im minS maxS me hme]
  cases me.variance with
  | top => rfl
  | coe q =>
    show ((q * 2 : ℚ) : WithTop ℚ) = ((2 * q : ℚ) : WithTop ℚ)
    rw [mul_comm]

/-- Claim C3: Strategy B's search records, per scale, the minimum block
variance over the searched phase offsets; sets the threshold at twice the
global minimum variance; and among scales within the threshold selects the
one closest to the FFT hint when a (positive) hint exists, else the largest.
The scale range must be nonempty (an empty range raises `IndexError` in the
source). -/
theorem bu_find_optimal_scale_spec (im : Img) (minS maxS : Nat) (hint : Option ℚ)
    (hrange : minS ≤ maxS) (hg : ∀ g, hint = some g → 0 < g) :
    ∃ sel : BU.ResultB,
      BU.find_optimal_scale im minS maxS hint = some sel ∧
      (∀ s, (BU.find_best_phase_for_scale im s).2 = BU.spec_min_phase_variance im s) ∧
      minS ≤ sel.scale ∧ sel.scale ≤ maxS ∧
      sel.variance = (BU.find_best_phase_for_scale im sel.scale).2 ∧
      sel.variance ≤ BU.spec_threshold im minS maxS ∧
      (∀ g, hint = some g →
        ∀ s, minS ≤ s → s ≤ maxS →
          (BU.find_best_phase_for_scale im s).2 ≤ BU.spec_threshold im minS maxS →
          |(sel.scale : ℚ) - g| ≤ |(s : ℚ) - g|) ∧
      (hint = none →
        ∀ s, minS ≤ s → s ≤ maxS →
          (BU.find_best_phase_for_scale im s).2 ≤ BU.spec_threshold im minS maxS →
          s ≤ sel.scale) := by
  have hne : BU.all_results im minS maxS ≠ [] := by
    have hmem : (⟨minS, (BU.find_best_phase_for_scale im minS).1.1,
        (BU.find_best_phase_for_scale im minS).1.2,
        (BU.find_best_phase_for_scale im minS).2⟩ : BU.ResultB) ∈
        BU.all_results im minS maxS :=
      (BU.all_results_mem im minS maxS _).mpr ⟨minS, le_refl _, hrange, rfl⟩
    exact List.ne_nil_of_mem hmem
  obtain ⟨me, hme⟩ := pyMinBy_ne_nil (fun (r : BU.ResultB) => r.variance)
    (BU.all_results im minS maxS) hne
  obtain ⟨hmemme, hleme⟩ := pyMinBy_spec _ _ _ hme
  -- every record's variance is the recorded best-phase variance and nonneg
  have hvar_shape : ∀ r ∈ BU.all_results im minS maxS,
      minS ≤ r.scale ∧ r.scale ≤ maxS ∧
        r.variance = (BU.find_best_phase_for_scale im r.scale).2 := by
    intro r hr
    obtain ⟨s, h1, h2, rfl⟩ := (BU.all_results_mem im minS maxS r).mp hr
    exact ⟨h1, h2, rfl⟩
  have hme_nonneg : (0 : WithTop ℚ) ≤ me.variance := by
    obtain ⟨h1, h2, h3⟩ := hvar_shape me hmemme
    rw [h3]
    exact BU.find_best_phase_variance_nonneg im me.scale
  have hth : WithTop.map (fun q => q * 2) me.variance = BU.spec_threshold im minS maxS :=
    BU.threshold_eq im minS maxS me hme
  -- membership in the valid list
  have hvalid_mem : ∀ r : BU.ResultB,
      r ∈ (BU.all_results im minS maxS).filter
        (fun r => decide (r.variance ≤ WithTop.map (fun q => q * 2) me.variance)) ↔
      r ∈ BU.all_results im minS maxS ∧ r.variance ≤ BU.spec_threshold im minS maxS := by
    intro r
    rw [List.mem_filter, hth]
    simp only [decide_eq_true_eq]
  have hmev : me ∈ (BU.all_results im minS maxS).filter
      (fun r => decide (r.variance ≤ WithTop.map (fun q => q * 2) me.variance)) := by
    rw [hvalid_mem]
    rw [← hth]
    exact ⟨hmemme, BU.le_double_of_nonneg _ hme_nonneg⟩
  have hvalid_ne : (BU.all_results im minS maxS).filter
      (fun r => decide (r.variance ≤ WithTop.map (fun q => q * 2) me.variance)) ≠ [] :=
    List.ne_nil_of_mem hmev
  -- reduce the search body
  unfold BU.find_optimal_scale
  dsimp only
  rw [hme]
  dsimp only
  rw [BU.truthyHintB_of_pos hint hg]
  -- name the valid list
  set valid := (BU.all_results im minS maxS).filter
    (fun r => decide (r.variance ≤ WithTop.map (fun q => q * 2) me.variance)) with hvalid
  cases hvl : valid with
  | nil => exact absurd hvl hvalid_ne
  | cons v vs =>
    cases hint with
    | some g =>
      dsimp only
      obtain ⟨m, hm⟩ := pyMinBy_ne_nil (fun (r : BU.ResultB) => |(r.scale : ℚ) - g|)
        (v :: vs) (by simp)
      rw [hm]
      obtain ⟨hmmem, hmle⟩ := pyMinBy_spec _ _ _ hm
      have hmval : m ∈ BU.all_results im minS maxS ∧
          m.variance ≤ BU.spec_threshold im minS maxS := by
        rw [← hvalid_mem m, hvl]
        exact hmmem
      obtain ⟨h1, h2, h3⟩ := hvar_shape m hmval.1
      refine ⟨m, rfl, BU.find_best_phase_variance im, h1, h2, h3, hmval.2, ?_, ?_⟩
      · intro g2 hg2 s hs1 hs2 hs3
        injection hg2 with hg2
        subst hg2
        have hrs : (⟨s, (BU.find_best_phase_for_scale im s).1.1,
            (BU.find_best_phase_for_scale im s).1.2,
            (BU.find_best_phase_for_scale im s).2⟩ : BU.ResultB) ∈ v :: vs := by
          rw [← hvl, hvalid]
          rw [hvalid_mem]
          exact ⟨(BU.all_results_mem im minS maxS _).mpr ⟨s, hs1, hs2, rfl⟩, hs3⟩
        simpa using hmle _ hrs
      · intro hnone
        exact absurd hnone (by simp)
    | none =>
      dsimp only
      obtain ⟨m, hm⟩ := pyMaxBy_ne_nil (fun (r : BU.ResultB) => r.scale) (v :: vs) (by simp)
      rw [hm]
      obtain ⟨hmmem, hmle⟩ := pyMaxBy_spec _ _ _ hm
      have hmval : m ∈ BU.all_results im minS maxS ∧
          m.variance ≤ BU.spec_threshold im minS maxS := by
        rw [← hvalid_mem m, hvl]
        exact hmmem
      obtain ⟨h1, h2, h3⟩ := hvar_shape m hmval.1
      refine ⟨m, rfl, BU.find_best_phase_variance im, h1, h2, h3, hmval.2, ?_, ?_⟩
      · intro g2 hg2
        exact absurd hg2 (by simp)
      · intro _ s hs1 hs2 hs3
        have hrs : (⟨s, (BU.find_best_phase_for_scale im s).1.1,
            (BU.find_best_phase_for_scale im s).1.2,
            (BU.find_best_phase_for_scale im s).2⟩ : BU.ResultB) ∈ v :: vs := by
          rw [← hvl, hvalid]
          rw [hvalid_mem]
          exact ⟨(BU.all_results_mem im minS maxS _).mpr ⟨s, hs1, hs2, rfl⟩, hs3⟩
        exact hmle _ hrs


/-- Witness for C3 at a concrete input: a 10×10 two-tone image searched over
scales 2–3 with no hint. -/
theorem bu_find_optimal_scale_spec_witness :
    ((2 : Nat) ≤ 3 ∧ (∀ g : ℚ, (none : Option ℚ) = some g → 0 < g)) ∧
    (∃ sel : BU.ResultB,
      BU.find_optimal_scale imgC3w 2 3 none = some sel ∧
      (∀ s, (BU.find_best_phase_for_scale imgC3w s).2 = BU.spec_min_phase_variance imgC3w s) ∧
      2 ≤ sel.scale ∧ sel.scale ≤ 3 ∧
      sel.variance = (BU.find_best_phase_for_scale imgC3w sel.scale).2 ∧
      sel.variance ≤ BU.spec_threshold imgC3w 2 3 ∧
      (∀ g, (none : Option ℚ) = some g →
        ∀ s, 2 ≤ s → s ≤ 3 →
          (BU.find_best_phase_for_scale imgC3w s).2 ≤ BU.spec_threshold imgC3w 2 3 →
          |(sel.scale : ℚ) - g| ≤ |(s : ℚ) - g|) ∧
      ((none : Option ℚ) = none →
        ∀ s, 2 ≤ s → s ≤ 3 →
          (BU.find_best_phase_for_scale imgC3w s).2 ≤ BU.spec_threshold imgC3w 2 3 →
          s ≤ sel.scale)) :=
  ⟨⟨by decide, fun g h => nomatch h⟩,
    bu_find_optimal_scale_spec imgC3w 2 3 none (by decide) (fun g h => nomatch h)⟩

